import Mathlib

/-!
Shallow embedding of the editor stacks model
(`src/vs/workbench/common/editor/editorStacksModel.ts`) and of the group view
layer (`NextEditorGroupView`), together with proofs about the frozen claims.

Modelling conventions:
* `EditorInput.matches` is modelled as decidable equality of the handle value;
  object identity coincides with the match equivalence.
* Event emitters are side effects outside the modelled state; close events are
  returned explicitly as data so that the model-level `onEditorClosed` handler
  can consume them.
* JavaScript array operations (`splice`, indexing) are modelled with their
  exact clamping semantics (`jsSpliceInsert`, `jsSpliceRemove`, `jsGet`).
-/

/-- `Direction` from `vs/platform/editor/common/editor`. -/
inductive Direction where
  | LEFT
  | RIGHT
deriving DecidableEq, Repr

/-- `EditorInput`: opaque handle with a stable id (`kind` = `getId()`), a
payload, a dirty flag, and for `DiffEditorInput` two wrapped sub-inputs
(`getOriginalInput()` / `getModifiedInput()`). `matches` is equality. -/
inductive EditorInput where
  | base (key : Nat) (kind payload : String) (dirty : Bool) : EditorInput
  | diff (key : Nat) (kind payload : String) (dirty : Bool)
      (original modified : EditorInput) : EditorInput
deriving DecidableEq, Repr

/-- `EditorInput.getId()`. -/
def EditorInput.getId : EditorInput → String
  | .base _ kind _ _ => kind
  | .diff _ kind _ _ _ _ => kind

/-- `EditorInput.isDirty()`. -/
def EditorInput.isDirty : EditorInput → Bool
  | .base _ _ _ d => d
  | .diff _ _ _ d _ _ => d

/-- `IGroupEvent`: payload of the group's `onEditorClosed` event. -/
structure GroupEvent where
  editor : EditorInput
  pinned : Bool
deriving DecidableEq, Repr

/-- `IEditorOpenOptions`; absent optional booleans are `false`,
an absent `index` is `none`. -/
structure OpenOptions where
  pinned : Bool := false
  active : Bool := false
  index : Option Int := none
deriving DecidableEq, Repr

/-- State of an `EditorGroup` (its mutable fields). -/
structure EditorGroup where
  id : Nat
  label : String
  editors : List EditorInput
  mru : List EditorInput
  active : Option EditorInput
  preview : Option EditorInput
deriving DecidableEq, Repr

/-- `ISerializedEditorInput` is `{id, value}`; modelled as a pair of strings. -/
abbrev SerializedEditorInput := String × String

/-- `ISerializedEditorGroup`. -/
structure SerializedEditorGroup where
  label : String
  editors : List SerializedEditorInput
  mru : List Int
  preview : Option Int
deriving DecidableEq, Repr

/-- `ISerializedEditorStacksModel`. -/
structure SerializedStacksModel where
  groups : List SerializedEditorGroup
  active : Option Int
  lastClosed : List SerializedEditorInput
deriving DecidableEq, Repr

/-- The editor-input factory registry (`IEditorRegistry`), combined with the
factories it stores: `serializeInput e` is `some value` exactly when a factory
is registered for `e.getId()` and its `serialize(e)` returns a string;
`deserializeInput id value` is the factory's `deserialize`. -/
structure EditorRegistry where
  serializeInput : EditorInput → Option String
  deserializeInput : String → String → EditorInput

/-- State of the `EditorStacksModel`. The TS `_activeGroup` object reference is
represented by the referenced group's unique id. -/
structure StacksModel where
  groups : List EditorGroup
  activeGroupId : Option Nat
  recentlyClosedEditors : List SerializedEditorInput
deriving DecidableEq, Repr

/-! ## JavaScript array primitives -/

/-- The actual index used by `Array.prototype.splice`: a negative index counts
from the end (clamped at 0), a too-large index is clamped to the length. -/
def jsNormIdx (idx : Int) (len : Nat) : Nat :=
  if idx < 0 then ((len : Int) + idx).toNat else min idx.toNat len

/-- `l.splice(idx, 0, x)`: insert one element. -/
def jsSpliceInsert (l : List α) (idx : Int) (x : α) : List α :=
  let i := jsNormIdx idx l.length
  l.take i ++ x :: l.drop i

/-- `l.splice(idx, 1)`: delete one element (none if the position is past the
end). -/
def jsSpliceRemove (l : List α) (idx : Int) : List α :=
  let i := jsNormIdx idx l.length
  l.take i ++ l.drop (i + 1)

/-- `l[idx]` for a possibly out-of-range (or negative) index: `undefined`
becomes `none`. -/
def jsGet (l : List α) (idx : Int) : Option α :=
  if idx < 0 then none else l.get? idx.toNat

/-- `arr[i] = x` on a JS array: replaces in range, appends at the length.
(An index beyond the length would create holes, which are not representable;
theorems about this operation only use indices up to the length.) -/
def jsArraySet (l : List α) (idx : Int) (x : α) : List α :=
  if idx < 0 then l
  else if idx.toNat < l.length then l.set idx.toNat x
  else l ++ [x]

/-- First index whose element equals the candidate (the loop body of
`EditorGroup.indexOf`). -/
def indexOfFrom? (c : EditorInput) : List EditorInput → Option Nat
  | [] => none
  | x :: xs => if x = c then some 0 else (indexOfFrom? c xs).map (· + 1)

/-- `EditorGroup.indexOf(candidate, editors)`: `-1` for a null candidate or a
missing editor, else the first index matching it. -/
def indexOfL (c : Option EditorInput) (l : List EditorInput) : Int :=
  match c with
  | none => -1
  | some c =>
    match indexOfFrom? c l with
    | some k => (k : Int)
    | none => -1

/-! ## EditorGroup operations -/

/-- `EditorGroup.matches(a, b)`: `!!a && !!b && a.matches(b)`. -/
def matchesB (a b : Option EditorInput) : Bool :=
  match a, b with
  | some x, some y => x = y
  | _, _ => false

/-- `EditorGroup.isPreview`. -/
def EditorGroup.isPreview (g : EditorGroup) (e : EditorInput) : Bool :=
  matchesB g.preview (some e)

/-- `EditorGroup.isActive`. -/
def EditorGroup.isActive (g : EditorGroup) (e : EditorInput) : Bool :=
  matchesB g.active (some e)

/-- `EditorGroup.isPinned`. -/
def EditorGroup.isPinned (g : EditorGroup) (e : EditorInput) : Bool :=
  if indexOfL (some e) g.editors = -1 then false
  else
    match g.preview with
    | none => true
    | some _ => !(matchesB g.preview (some e))

/-- `EditorGroup.splice(index, false, editor)`: insert into `editors` and push
onto `mru`. -/
def EditorGroup.spliceIns (g : EditorGroup) (index : Int) (e : EditorInput) :
    EditorGroup :=
  { g with editors := jsSpliceInsert g.editors index e, mru := g.mru ++ [e] }

/-- `EditorGroup.splice(index, true)`: delete from `editors` and delete the
deleted element's position from `mru`. -/
def EditorGroup.spliceDel (g : EditorGroup) (index : Int) : EditorGroup :=
  let editorToDelete := jsGet g.editors index
  let indexInMRU := indexOfL editorToDelete g.mru
  { g with editors := jsSpliceRemove g.editors index,
           mru := jsSpliceRemove g.mru indexInMRU }

/-- `EditorGroup.setMostRecentlyUsed`. -/
def EditorGroup.setMostRecentlyUsed (g : EditorGroup) (e : EditorInput) :
    EditorGroup :=
  if indexOfL (some e) g.editors = -1 then g
  else
    let mruIndex := indexOfL (some e) g.mru
    { g with mru := e :: jsSpliceRemove g.mru mruIndex }

/-- `EditorGroup.setActive`. -/
def EditorGroup.setActive (g : EditorGroup) (e : EditorInput) : EditorGroup :=
  if indexOfL (some e) g.editors = -1 then g
  else if matchesB g.active (some e) then g
  else EditorGroup.setMostRecentlyUsed { g with active := some e } e

/-- The "Active Editor closed" step of `closeEditor`: when `openNext` is set
and the closed editor is the active one, activate `mru[1]` if there is more
than one editor, else clear `active`. -/
def EditorGroup.closeEditorActiveStep (g : EditorGroup) (e : EditorInput)
    (openNext : Bool) : EditorGroup :=
  if openNext && matchesB g.active (some e) then
    match g.mru with
    | _ :: b :: _ => g.setActive b
    | _ => { g with active := none }
  else g

/-- `EditorGroup.closeEditor(editor, openNext)`; also returns the
`onEditorClosed` event it fires, if any. -/
def EditorGroup.closeEditor (g : EditorGroup) (e : EditorInput)
    (openNext : Bool := true) : EditorGroup × Option GroupEvent :=
  let index := indexOfL (some e) g.editors
  if index = -1 then (g, none)
  else
    let g1 := g.closeEditorActiveStep e openNext
    let pinned := !(matchesB g1.preview (some e))
    let g2 := if matchesB g1.preview (some e) then { g1 with preview := none }
              else g1
    (g2.spliceDel index, some ⟨e, pinned⟩)

/-- `closeEditor` applied to a possibly-null editor (a null argument makes
`indexOf` return `-1`, a no-op). -/
def EditorGroup.closeEditorOpt (g : EditorGroup) (e : Option EditorInput)
    (openNext : Bool := true) : EditorGroup × Option GroupEvent :=
  match e with
  | some e => g.closeEditor e openNext
  | none => (g, none)

/-- `EditorGroup.pin`. -/
def EditorGroup.pin (g : EditorGroup) (e : EditorInput) : EditorGroup :=
  if !(g.isPreview e) then g else { g with preview := none }

/-- `EditorGroup.unpin`. -/
def EditorGroup.unpin (g : EditorGroup) (e : EditorInput) :
    EditorGroup × Option GroupEvent :=
  if !(g.isPinned e) then (g, none)
  else
    let oldPreview := g.preview
    let g1 := { g with preview := some e }
    g1.closeEditorOpt oldPreview true

/-- `EditorGroup.moveEditor`. -/
def EditorGroup.moveEditor (g : EditorGroup) (e : EditorInput)
    (toIndex : Int) : EditorGroup :=
  let index := indexOfL (some e) g.editors
  if index < 0 then g
  else { g with editors := jsSpliceInsert (jsSpliceRemove g.editors index)
                  toIndex e }

/-- The insertion index computed for a new editor: an explicit `index` wins,
else right of the active editor, else (direction LEFT) left of the active
editor, with position 0 when the active editor is first or the group empty. -/
def openTargetIndex (g : EditorGroup) (opts : OpenOptions) (dir : Direction) :
    Int :=
  let indexOfActive := indexOfL g.active g.editors
  match opts.index with
  | some i => i
  | none =>
    if dir = Direction.RIGHT then indexOfActive + 1
    else if indexOfActive = 0 || g.editors.isEmpty then 0
    else indexOfActive - 1

/-- The `index === -1` branch of `EditorGroup.openEditor` (a new editor). -/
def EditorGroup.openEditorNew (g : EditorGroup) (e : EditorInput)
    (opts : OpenOptions) (dir : Direction) : EditorGroup × Option GroupEvent :=
  let makePinned := opts.pinned
  let makeActive := opts.active || g.active.isNone ||
    (!makePinned && matchesB g.preview g.active)
  let targetIndex : Int := openTargetIndex g opts dir
  -- Insert into our list of editors if pinned or we have no preview editor
  let gIns := if makePinned || g.preview.isNone then g.spliceIns targetIndex e
              else g
  -- Handle preview
  let (g4, ev) :=
    if makePinned then (gIns, none)
    else
      match g.preview with
      | some p =>
        let indexOfPreview := indexOfL (some p) gIns.editors
        let targetIndex2 := if targetIndex ≥ indexOfPreview then targetIndex - 1
                            else targetIndex
        let r := gIns.closeEditor p (!makeActive)
        (({ r.1.spliceIns targetIndex2 e with preview := some e } :
            EditorGroup), r.2)
      | none => ({ gIns with preview := some e }, none)
  -- Handle active
  (if makeActive then g4.setActive e else g4, ev)

/-- The existing-editor branch of `EditorGroup.openEditor`. -/
def EditorGroup.openEditorExisting (g : EditorGroup) (e : EditorInput)
    (opts : OpenOptions) : EditorGroup :=
  let makePinned := opts.pinned
  let makeActive := opts.active || g.active.isNone ||
    (!makePinned && matchesB g.preview g.active)
  let gA := if makePinned then g.pin e else g
  let gB := if makeActive then gA.setActive e else gA
  match opts.index with
  | some i => gB.moveEditor e i
  | none => gB

/-- `EditorGroup.openEditor`. `dir` is the module-level
`CONFIG_OPEN_EDITOR_DIRECTION`, read at call time. -/
def EditorGroup.openEditor (g : EditorGroup) (e : EditorInput)
    (opts : OpenOptions) (dir : Direction) : EditorGroup × Option GroupEvent :=
  if indexOfL (some e) g.editors = -1 then g.openEditorNew e opts dir
  else (g.openEditorExisting e opts, none)

/-- The descending loop of `closeEditors` to the LEFT of `index`: closes
`editors[i]`, `editors[i-1]`, …, `editors[0]` on the evolving array. -/
def EditorGroup.closeLeftLoop (g : EditorGroup) :
    Nat → EditorGroup × List GroupEvent
  | 0 =>
    let r := g.closeEditorOpt (jsGet g.editors 0) true
    (r.1, r.2.toList)
  | i + 1 =>
    let r := g.closeEditorOpt (jsGet g.editors ((i : Int) + 1)) true
    let rest := r.1.closeLeftLoop i
    (rest.1, r.2.toList ++ rest.2)

/-- The descending loop of `closeEditors` to the RIGHT of `index`: starts at
the initial last index and stops at `index + 1`, the array shrinking under
it. -/
def EditorGroup.closeRightLoop (g : EditorGroup) (i index : Nat) :
    EditorGroup × List GroupEvent :=
  if i > index then
    let r := g.closeEditorOpt (jsGet g.editors (i : Int)) true
    let rest := r.1.closeRightLoop (i - 1) index
    (rest.1, r.2.toList ++ rest.2)
  else (g, [])
termination_by i - index
decreasing_by
  simp_wf
  omega

/-- Close a snapshot list of editors one after the other (the
`filter(...).forEach(e => this.closeEditor(e))` pattern). -/
def EditorGroup.closeList (g : EditorGroup) :
    List EditorInput → EditorGroup × List GroupEvent
  | [] => (g, [])
  | e :: es =>
    let r := g.closeEditor e true
    let rest := r.1.closeList es
    (rest.1, r.2.toList ++ rest.2)

/-- `EditorGroup.closeEditors(except, direction?)`. -/
def EditorGroup.closeEditors (g : EditorGroup) (except : EditorInput)
    (direction : Option Direction) : EditorGroup × List GroupEvent :=
  let index := indexOfL (some except) g.editors
  if index = -1 then (g, [])
  else
    match direction with
    | some Direction.LEFT =>
      if index = 0 then (g, [])
      else g.closeLeftLoop (index.toNat - 1)
    | some Direction.RIGHT =>
      g.closeRightLoop (g.editors.length - 1) index.toNat
    | none =>
      g.closeList (g.mru.filter (fun e => !(matchesB (some e) (some except))))

/-- `EditorGroup.closeAllEditors`: close all non-active editors in MRU order,
then the active one (`this.active` read after those closes). -/
def EditorGroup.closeAllEditors (g : EditorGroup) :
    EditorGroup × List GroupEvent :=
  let r := g.closeList (g.mru.filter (fun e => !(matchesB (some e) g.active)))
  let r2 := r.1.closeEditorOpt r.1.active true
  (r2.1, r.2 ++ r2.2.toList)

/-- The body of the `forEach` in `EditorGroup.serialize`: accumulate the
serialized records, the serializable editors, and the serializable preview
index (overwritten whenever the processed editor is the preview). -/
def serializeStep (reg : EditorRegistry) (preview : Option EditorInput)
    (acc : List SerializedEditorInput × List EditorInput × Option Int)
    (e : EditorInput) :
    List SerializedEditorInput × List EditorInput × Option Int :=
  match reg.serializeInput e with
  | some value =>
    let serializedEditors := acc.1 ++ [(e.getId, value)]
    let serializableEditors := acc.2.1 ++ [e]
    let previewIndex :=
      if preview = some e then
        some ((serializableEditors.length : Int) - 1)
      else acc.2.2
    (serializedEditors, serializableEditors, previewIndex)
  | none => acc

/-- `EditorGroup.serialize`. The `forEach` accumulates the serialized records,
the serializable editors, and the serializable preview index. -/
def EditorGroup.serialize (reg : EditorRegistry) (g : EditorGroup) :
    SerializedEditorGroup :=
  let acc := g.editors.foldl (serializeStep reg g.preview) ([], [], none)
  let serializableMru :=
    (g.mru.map (fun e => indexOfL (some e) acc.2.1)).filter (fun i => i ≥ 0)
  { label := g.label, editors := acc.1, mru := serializableMru,
    preview := acc.2.2 }

/-- `EditorGroup.deserialize`. Out-of-range `mru` indices would produce
`undefined` entries in the TS array; such entries are not representable and
are dropped (`serialize` never produces them). An out-of-range or absent
`preview` index yields `undefined`, i.e. no preview, exactly as in TS. -/
def EditorGroup.deserialize (reg : EditorRegistry) (nid : Nat)
    (data : SerializedEditorGroup) : EditorGroup :=
  let editors := data.editors.map (fun p => reg.deserializeInput p.1 p.2)
  let mru := data.mru.filterMap (fun i => jsGet editors i)
  { id := nid, label := data.label, editors := editors, mru := mru,
    active := (data.mru.head?.bind (fun i => jsGet editors i)),
    preview := data.preview.bind (fun i => jsGet editors i) }

/-! ## EditorStacksModel operations -/

/-- A freshly constructed `EditorGroup` (string-argument constructor). -/
def mkGroup (nid : Nat) (label : String) : EditorGroup :=
  { id := nid, label := label, editors := [], mru := [], active := none,
    preview := none }

def emptyModel : StacksModel :=
  { groups := [], activeGroupId := none, recentlyClosedEditors := [] }

/-- `EditorStacksModel.isOpen`: the editor is present in some group. -/
def StacksModel.isOpen (groups : List EditorGroup) (e : EditorInput) : Bool :=
  groups.any (fun g => indexOfL (some e) g.editors ≥ 0)

/-- `EditorStacksModel.onEditorClosed`: returns the handles whose physical
`close()` is invoked for this event, and the updated
`recentlyClosedEditors`. -/
def StacksModel.onEditorClosedHandler (groups : List EditorGroup)
    (rc : List SerializedEditorInput) (reg : EditorRegistry)
    (ev : GroupEvent) : List EditorInput × List SerializedEditorInput :=
  let closed :=
    if !(StacksModel.isOpen groups ev.editor) then
      ev.editor ::
        (match ev.editor with
         | .diff _ _ _ _ original modified =>
           (if !(StacksModel.isOpen groups original) then [original] else []) ++
           (if !(StacksModel.isOpen groups modified) then [modified] else [])
         | .base _ _ _ _ => [])
    else []
  let rc2 :=
    if ev.pinned then
      match reg.serializeInput ev.editor with
      | some value => ((rc ++ [(ev.editor.getId, value)]).take 10)
      | none => rc
    else rc
  (closed, rc2)

/-- Fold the close events of a group operation through `onEditorClosed`,
keeping only the `recentlyClosedEditors` update. -/
def StacksModel.processEvents (groups : List EditorGroup)
    (rc : List SerializedEditorInput) (reg : EditorRegistry)
    (evs : List GroupEvent) : List SerializedEditorInput :=
  evs.foldl (fun rc ev => (StacksModel.onEditorClosedHandler groups rc reg ev).2) rc

/-- `EditorStacksModel.setActive(group)`: no membership check; a no-op only
when the group is already the active one. -/
def StacksModel.setActive (m : StacksModel) (g : EditorGroup) : StacksModel :=
  if m.activeGroupId = some g.id then m
  else { m with activeGroupId := some g.id }

/-- `EditorStacksModel.openGroup(label, activate, index)`. `nid` is the fresh
id `EditorGroup.IDS++` hands out. -/
def StacksModel.openGroup (m : StacksModel) (label : String) (activate : Bool)
    (index : Option Int) (nid : Nat) : StacksModel :=
  let group := mkGroup nid label
  let groups2 :=
    match index with
    | some i => jsArraySet m.groups i group
    | none =>
      match m.activeGroupId with
      | none => m.groups ++ [group]
      | some gid =>
        -- this._groups.splice(this.indexOf(this._activeGroup) + 1, 0, group)
        let indexOfActive : Int :=
          match m.groups.findIdx? (fun g => g.id = gid) with
          | some i => (i : Int)
          | none => -1
        jsSpliceInsert m.groups (indexOfActive + 1) group
  let m2 := { m with groups := groups2 }
  if m.activeGroupId.isNone || activate then m2.setActive group else m2

/-- `EditorStacksModel.closeGroup(group)`. The group's editors are closed
first (their events feeding `onEditorClosed` against the groups array in which
this group has already been emptied), then the group is spliced out. -/
def StacksModel.closeGroup (m : StacksModel) (g : EditorGroup)
    (reg : EditorRegistry) : StacksModel :=
  match m.groups.findIdx? (fun x => x = g) with
  | none => m
  | some index =>
    let m1 :=
      if m.activeGroupId = some g.id then
        if m.groups.length > 1 then
          match (if m.groups.length > index + 1 then jsGet m.groups ((index : Int) + 1)
                 else jsGet m.groups ((index : Int) - 1)) with
          | some newActiveGroup => m.setActive newActiveGroup
          | none => { m with activeGroupId := none }
        else { m with activeGroupId := none }
      else m
    let r := g.closeAllEditors
    let groupsMid := m1.groups.set index r.1
    let rc2 := StacksModel.processEvents groupsMid m1.recentlyClosedEditors reg r.2
    { groups := jsSpliceRemove groupsMid (index : Int),
      activeGroupId := m1.activeGroupId,
      recentlyClosedEditors := rc2 }

/-- `EditorStacksModel.moveGroup(group, toIndex)`. -/
def StacksModel.moveGroup (m : StacksModel) (g : EditorGroup) (toIndex : Int) :
    StacksModel :=
  match m.groups.findIdx? (fun x => x = g) with
  | none => m
  | some index =>
    { m with groups :=
        jsSpliceInsert (jsSpliceRemove m.groups (index : Int)) toIndex g }

/-- The `activeGroup` getter: the group object referenced by `_activeGroup`. -/
def StacksModel.activeGroup (m : StacksModel) : Option EditorGroup :=
  m.activeGroupId.bind (fun gid => m.groups.find? (fun g => g.id = gid))

/-- `EditorStacksModel.next()`. -/
def StacksModel.next (m : StacksModel) :
    Option (EditorGroup × Option EditorInput) :=
  match m.activeGroup with
  | none => none
  | some g =>
    let index := indexOfL g.active g.editors
    if index + 1 < (g.editors.length : Int) then
      some (g, jsGet g.editors (index + 1))
    else
      let indexOfGroup : Int :=
        match m.groups.findIdx? (fun x => x = g) with
        | some i => (i : Int)
        | none => -1
      match jsGet m.groups (indexOfGroup + 1) with
      | some nextGroup => some (nextGroup, jsGet nextGroup.editors 0)
      | none =>
        match m.groups.head? with
        | some firstGroup => some (firstGroup, jsGet firstGroup.editors 0)
        | none => none

/-- `EditorStacksModel.previous()`. -/
def StacksModel.previous (m : StacksModel) :
    Option (EditorGroup × Option EditorInput) :=
  match m.activeGroup with
  | none => none
  | some g =>
    let index := indexOfL g.active g.editors
    if index > 0 then
      some (g, jsGet g.editors (index - 1))
    else
      let indexOfGroup : Int :=
        match m.groups.findIdx? (fun x => x = g) with
        | some i => (i : Int)
        | none => -1
      match jsGet m.groups (indexOfGroup - 1) with
      | some previousGroup =>
        some (previousGroup,
          jsGet previousGroup.editors ((previousGroup.editors.length : Int) - 1))
      | none =>
        match m.groups.getLast? with
        | some lastGroup =>
          some (lastGroup,
            jsGet lastGroup.editors ((lastGroup.editors.length : Int) - 1))
        | none => none

/-- `EditorStacksModel.doValidate`. -/
def StacksModel.doValidate (s : SerializedStacksModel) : Nat :=
  if s.groups.length = 0 && s.active.isSome then 1
  else if s.groups.length ≠ 0 &&
      (match s.active with
       | none => true
       | some i => (jsGet s.groups i).isNone) then 2
  else if s.groups.length > 3 then 3
  else if s.groups.any (fun g => g.editors.length = 0) then 4
  else if s.groups.any (fun g => g.editors.length ≠ g.mru.length) then 5
  else if s.groups.any (fun g =>
      match g.preview with
      | some i => (jsGet g.editors i).isNone
      | none => false) then 6
  else if s.groups.any (fun g => g.label = "") then 7
  else 0

/-- `EditorStacksModel.load` applied to a parsed stored blob: on any
validation failure the whole blob is discarded and the model stays empty;
otherwise the groups, active index and recently-closed buffer are rebuilt. -/
def StacksModel.load (reg : EditorRegistry) (s : SerializedStacksModel) :
    StacksModel :=
  if StacksModel.doValidate s ≠ 0 then emptyModel
  else
    let gs := (s.groups.enum.map (fun p => EditorGroup.deserialize reg p.1 p.2))
    { groups := gs,
      activeGroupId :=
        (s.active.bind (fun i => jsGet gs i)).map (fun g => g.id),
      recentlyClosedEditors := s.lastClosed }

/-! ## Group view layer (`NextEditorGroupView`) -/

/-- The slice of `INextEditorPartOptions` the claims use. -/
structure PartOptions where
  enablePreview : Bool
deriving DecidableEq, Repr

/-- The slice of `EditorOptions` read by `doOpenEditor`; the whole options
object may be absent. -/
structure ViewOpenOptions where
  index : Option Int := none
  pinned : Bool := false
  inactive : Bool := false
deriving DecidableEq, Repr

/-- The `openEditorOptions` computed by `NextEditorGroupView.doOpenEditor`,
including the special case forcing `active` for a replacement of an unpinned
active editor. -/
def viewOpenEditorOptions (partOptions : PartOptions) (g : EditorGroup)
    (e : EditorInput) (options : Option ViewOpenOptions) : OpenOptions :=
  let openEditorOptions : OpenOptions :=
    { index := match options with | some o => o.index | none => none,
      pinned := !partOptions.enablePreview || e.isDirty ||
        (match options with | some o => o.pinned | none => false) ||
        (match options with | some o => o.index.isSome | none => false),
      active := g.editors.length = 0 ||
        (match options with | some o => !o.inactive | none => true) }
  if !openEditorOptions.active && !openEditorOptions.pinned &&
      matchesB g.preview g.active then
    { openEditorOptions with active := true }
  else openEditorOptions

/-- The model update performed by `NextEditorGroupView.doOpenEditor`. -/
def viewDoOpenEditor (partOptions : PartOptions) (g : EditorGroup)
    (e : EditorInput) (options : Option ViewOpenOptions) (dir : Direction) :
    EditorGroup :=
  (g.openEditor e (viewOpenEditorOptions partOptions g e options) dir).1

/-- `NextEditorGroupView.pinEditor` (model part): guards on a present editor
that is not pinned, then pins it in the group. -/
def viewPinEditor (g : EditorGroup) (e : Option EditorInput) : EditorGroup :=
  match e with
  | some editor => if !(g.isPinned editor) then g.pin editor else g
  | none => g

/-- `NextEditorGroupView.onDidEditorBecomeDirty`: always show dirty editors
pinned. -/
def viewOnDidEditorBecomeDirty (g : EditorGroup) (e : EditorInput) :
    EditorGroup :=
  viewPinEditor g (some e)

/-! ## Invariants -/

/-- The preview editor, when set, is an element of `editors`. -/
def previewOk (g : EditorGroup) : Prop :=
  match g.preview with
  | some p => p ∈ g.editors
  | none => True

instance (g : EditorGroup) : Decidable (previewOk g) := by
  unfold previewOk
  cases g.preview <;> exact inferInstance

/-- The always-maintained part of the group invariant: `mru` is a permutation
of `editors`, the editors are pairwise distinct, and the preview (if any) is
present. -/
def InvW (g : EditorGroup) : Prop :=
  g.mru.Perm g.editors ∧ g.editors.Nodup ∧ previewOk g

instance (g : EditorGroup) : Decidable (InvW g) := by
  unfold InvW
  exact inferInstance

/-- The active editor, when set, is the MRU head; when unset, the group is
empty. -/
def activeOk (g : EditorGroup) : Prop :=
  match g.active with
  | some a => g.mru.head? = some a
  | none => g.mru = []

instance (g : EditorGroup) : Decidable (activeOk g) := by
  unfold activeOk
  cases g.active <;> exact inferInstance

/-- The full group invariant. -/
def GroupInv (g : EditorGroup) : Prop :=
  InvW g ∧ activeOk g

instance (g : EditorGroup) : Decidable (GroupInv g) := by
  unfold GroupInv
  exact inferInstance

/-! ## Lemmas about the list primitives -/

/-- The public `EditorGroup` operations of the model, as reified ops. -/
inductive GroupOp where
  | openEditor (e : EditorInput) (opts : OpenOptions) (dir : Direction)
  | closeEditor (e : EditorInput) (openNext : Bool)
  | closeEditors (except : EditorInput) (d : Option Direction)
  | closeAllEditors
  | moveEditor (e : EditorInput) (toIndex : Int)
  | setActive (e : EditorInput)
  | pin (e : EditorInput)
  | unpin (e : EditorInput)
deriving DecidableEq, Repr

/-- Apply one public operation to a group (ignoring the emitted events). -/
def applyOp (g : EditorGroup) : GroupOp → EditorGroup
  | .openEditor e opts dir => (g.openEditor e opts dir).1
  | .closeEditor e b => (g.closeEditor e b).1
  | .closeEditors x d => (g.closeEditors x d).1
  | .closeAllEditors => g.closeAllEditors.1
  | .moveEditor e i => g.moveEditor e i
  | .setActive e => g.setActive e
  | .pin e => g.pin e
  | .unpin e => (g.unpin e).1

/-- Apply a sequence of public operations. -/
def applyOps (g : EditorGroup) (ops : List GroupOp) : EditorGroup :=
  ops.foldl applyOp g

/-- Does the operation use the default `openNext = true` on `closeEditor`?
(All other operations only ever close with `openNext = true`.) -/
def opOpenNextTrue : GroupOp → Bool
  | .closeEditor _ b => b
  | _ => true

/-- The active editor, when set, is an element of `editors` (the claim's
membership conjunct). -/
def activeInEditors (g : EditorGroup) : Prop :=
  match g.active with
  | some a => a ∈ g.editors
  | none => True

instance (g : EditorGroup) : Decidable (activeInEditors g) := by
  unfold activeInEditors
  cases g.active <;> exact inferInstance

/-- A registry serializing `base` inputs as their payload. -/
def regSample : EditorRegistry :=
  { serializeInput := fun e =>
      match e with
      | .base _ _ payload _ => some payload
      | .diff _ _ _ _ _ _ => none,
    deserializeInput := fun kind value => .base 0 kind value false }

/-- A stored blob whose single group has no editors (violation 4). -/
def blobEmptyGroup : SerializedStacksModel :=
  { groups := [{ label := "one", editors := [], mru := [], preview := none }],
    active := some 0, lastClosed := [] }

/-- A one-editor group whose single editor is both active and the preview. -/
def gPrevSample : EditorGroup :=
  { id := 0, label := "g", editors := [.base 1 "f" "a" false],
    mru := [.base 1 "f" "a" false], active := some (.base 1 "f" "a" false),
    preview := some (.base 1 "f" "a" false) }

/-- A concrete registry for the round-trip witness: serializes exactly two
handles, faithfully. -/
def regRT : EditorRegistry :=
  { serializeInput := fun e =>
      if e = .base 1 "f" "a" false then some "a"
      else if e = .base 2 "f" "b" false then some "b"
      else none,
    deserializeInput := fun _ v =>
      if v = "a" then .base 1 "f" "a" false else .base 2 "f" "b" false }

/-- A three-editor group whose middle editor (in MRU order) is not
serializable. -/
def gRT : EditorGroup :=
  { id := 0, label := "g",
    editors := [.base 1 "f" "a" false, .base 3 "f" "c" false,
      .base 2 "f" "b" false],
    mru := [.base 2 "f" "b" false, .base 1 "f" "a" false,
      .base 3 "f" "c" false],
    active := some (.base 2 "f" "b" false),
    preview := some (.base 2 "f" "b" false) }

/-- The flattened sequence of all groups' editors, in group order then editor
order — the ring the spec describes. -/
def flatSeq (gs : List EditorGroup) : List (EditorGroup × EditorInput) :=
  gs.flatMap (fun g => g.editors.map (fun e => (g, e)))

/-- The flat position of editor `j` of group `i`. -/
def posInFlat (gs : List EditorGroup) (i j : Nat) : Nat :=
  (((gs.take i).map (fun g => g.editors.length)).sum) + j

/-- Sample input and groups for the C9 counterexample: one group holding a
single editor, followed by an empty group. -/
def inC9A : EditorInput := .base 901 "file" "a" false

def gC9one : EditorGroup :=
  { id := 91, label := "one", editors := [inC9A], mru := [inC9A],
    active := some inC9A, preview := none }

def gC9empty : EditorGroup := mkGroup 92 "empty"

def mC9 : StacksModel :=
  { groups := [gC9one, gC9empty], activeGroupId := some 91,
    recentlyClosedEditors := [] }

/-- Sample inputs, groups and model for the C9 witness: two nonempty groups. -/
def inC9B : EditorInput := .base 902 "file" "b" false

def inC9C : EditorInput := .base 903 "file" "c" false

def gC9w1 : EditorGroup :=
  { id := 93, label := "w1", editors := [inC9A, inC9B], mru := [inC9A, inC9B],
    active := some inC9A, preview := none }

def gC9w2 : EditorGroup :=
  { id := 94, label := "w2", editors := [inC9C], mru := [inC9C],
    active := some inC9C, preview := none }

def mC9w : StacksModel :=
  { groups := [gC9w1, gC9w2], activeGroupId := some 93,
    recentlyClosedEditors := [] }

theorem indexOfFrom?_eq_none {c : EditorInput} {l : List EditorInput} :
    indexOfFrom? c l = none ↔ c ∉ l := by
  induction l with
  | nil => simp [indexOfFrom?]
  | cons x xs ih =>
    by_cases hx : x = c
    · subst hx
      simp [indexOfFrom?]
    · simp [indexOfFrom?, hx, ih, Ne.symm hx]

theorem indexOfFrom?_isSome {c : EditorInput} {l : List EditorInput}
    (h : c ∈ l) : ∃ k, indexOfFrom? c l = some k := by
  rcases hk : indexOfFrom? c l with _ | k
  · exact absurd (indexOfFrom?_eq_none.mp hk) (by simp [h])
  · exact ⟨k, rfl⟩

theorem indexOfFrom?_get {c : EditorInput} {l : List EditorInput} {k : Nat}
    (h : indexOfFrom? c l = some k) : l.get? k = some c := by
  induction l generalizing k with
  | nil => simp [indexOfFrom?] at h
  | cons x xs ih =>
    by_cases hx : x = c
    · subst hx
      simp [indexOfFrom?] at h
      simp [← h]
    · simp [indexOfFrom?, hx] at h
      rcases h with ⟨k', hk', rfl⟩
      simpa using ih hk'

theorem indexOfFrom?_lt {c : EditorInput} {l : List EditorInput} {k : Nat}
    (h : indexOfFrom? c l = some k) : k < l.length := by
  by_contra hk
  have hg := indexOfFrom?_get h
  rw [List.get?_eq_none.mpr (by omega : l.length ≤ k)] at hg
  cases hg

theorem indexOfFrom?_erase {c : EditorInput} {l : List EditorInput} {k : Nat}
    (h : indexOfFrom? c l = some k) :
    l.take k ++ l.drop (k + 1) = l.erase c := by
  induction l generalizing k with
  | nil => simp [indexOfFrom?] at h
  | cons x xs ih =>
    by_cases hx : x = c
    · subst hx
      simp [indexOfFrom?] at h
      subst h
      simp [List.erase_cons_head]
    · simp [indexOfFrom?, hx] at h
      rcases h with ⟨k', hk', rfl⟩
      have hbe : (x == c) = false := by simp [hx]
      simp [List.erase_cons_tail, hbe, ih hk']

theorem indexOfL_eq_neg {c : EditorInput} {l : List EditorInput} :
    indexOfL (some c) l = -1 ↔ c ∉ l := by
  unfold indexOfL
  rcases hk : indexOfFrom? c l with _ | k
  · simp [hk, indexOfFrom?_eq_none.mp hk]
  · have hmem : c ∈ l := List.get?_mem (indexOfFrom?_get hk)
    simp [hk, hmem]

theorem indexOfL_of_found {c : EditorInput} {l : List EditorInput} {k : Nat}
    (h : indexOfFrom? c l = some k) : indexOfL (some c) l = (k : Int) := by
  unfold indexOfL
  simp [h]

theorem jsNormIdx_of_lt {k len : Nat} (h : k < len) :
    jsNormIdx (k : Int) len = k := by
  unfold jsNormIdx
  rw [if_neg (by omega)]
  omega

theorem jsSpliceInsert_perm (l : List α) (idx : Int) (x : α) :
    (jsSpliceInsert l idx x).Perm (x :: l) := by
  unfold jsSpliceInsert
  calc (l.take (jsNormIdx idx l.length) ++ x :: l.drop (jsNormIdx idx l.length)).Perm
        (x :: (l.take (jsNormIdx idx l.length) ++ l.drop (jsNormIdx idx l.length))) :=
        List.perm_middle
    _ = x :: l := by rw [List.take_append_drop]

theorem jsSpliceInsert_length (l : List α) (idx : Int) (x : α) :
    (jsSpliceInsert l idx x).length = l.length + 1 :=
  (jsSpliceInsert_perm l idx x).length_eq

theorem jsSpliceInsert_mem {l : List α} {idx : Int} {x y : α} :
    y ∈ jsSpliceInsert l idx x ↔ y = x ∨ y ∈ l := by
  rw [(jsSpliceInsert_perm l idx x).mem_iff]
  simp

theorem jsSpliceRemove_of_indexOf {c : EditorInput} {l : List EditorInput}
    {k : Nat} (h : indexOfFrom? c l = some k) :
    jsSpliceRemove l (k : Int) = l.erase c := by
  show l.take (jsNormIdx (k : Int) l.length) ++
    l.drop (jsNormIdx (k : Int) l.length + 1) = l.erase c
  rw [jsNormIdx_of_lt (indexOfFrom?_lt h)]
  exact indexOfFrom?_erase h

/-! ## Characterizations of the group primitives -/

theorem indexOfL_ne_neg {c : EditorInput} {l : List EditorInput}
    (h : c ∈ l) : indexOfL (some c) l ≠ -1 := by
  simp [indexOfL_eq_neg, h]

theorem jsGet_of_indexOf {c : EditorInput} {l : List EditorInput} {k : Nat}
    (h : indexOfFrom? c l = some k) : jsGet l (k : Int) = some c := by
  unfold jsGet
  rw [if_neg (by omega)]
  simpa using indexOfFrom?_get h

theorem smru_of_mem {g : EditorGroup} {e : EditorInput}
    (he : e ∈ g.editors) (hm : e ∈ g.mru) :
    g.setMostRecentlyUsed e = { g with mru := e :: g.mru.erase e } := by
  obtain ⟨k, hk⟩ := indexOfFrom?_isSome hm
  unfold EditorGroup.setMostRecentlyUsed
  rw [if_neg (indexOfL_ne_neg he)]
  simp only [indexOfL_of_found hk, jsSpliceRemove_of_indexOf hk]

theorem setActive_of_not_mem {g : EditorGroup} {e : EditorInput}
    (h : e ∉ g.editors) : g.setActive e = g := by
  unfold EditorGroup.setActive
  rw [if_pos (indexOfL_eq_neg.mpr h)]

theorem setActive_of_matches {g : EditorGroup} {e : EditorInput}
    (h : g.active = some e) : g.setActive e = g := by
  unfold EditorGroup.setActive
  rw [h]
  by_cases hmem : indexOfL (some e) g.editors = -1
  · rw [if_pos hmem]
  · rw [if_neg hmem, if_pos (by simp [matchesB])]

theorem setActive_eq {g : EditorGroup} {e : EditorInput}
    (he : e ∈ g.editors) (hm : e ∈ g.mru) (hne : g.active ≠ some e) :
    g.setActive e = { g with active := some e, mru := e :: g.mru.erase e } := by
  unfold EditorGroup.setActive
  rw [if_neg (indexOfL_ne_neg he)]
  have hmb : matchesB g.active (some e) = false := by
    cases ha : g.active with
    | none => rfl
    | some a =>
      have : a ≠ e := fun hae => hne (by rw [ha, hae])
      simp [matchesB, this]
  rw [hmb]
  simp only [Bool.false_eq_true, if_false]
  exact smru_of_mem he hm

theorem setActive_editors (g : EditorGroup) (e : EditorInput) :
    (g.setActive e).editors = g.editors := by
  by_cases h1 : indexOfL (some e) g.editors = -1 <;>
    by_cases h2 : matchesB g.active (some e) = true <;>
    simp [EditorGroup.setActive, EditorGroup.setMostRecentlyUsed, h1, h2]

theorem setActive_preview (g : EditorGroup) (e : EditorInput) :
    (g.setActive e).preview = g.preview := by
  by_cases h1 : indexOfL (some e) g.editors = -1 <;>
    by_cases h2 : matchesB g.active (some e) = true <;>
    simp [EditorGroup.setActive, EditorGroup.setMostRecentlyUsed, h1, h2]

theorem setActive_id (g : EditorGroup) (e : EditorInput) :
    (g.setActive e).id = g.id := by
  by_cases h1 : indexOfL (some e) g.editors = -1 <;>
    by_cases h2 : matchesB g.active (some e) = true <;>
    simp [EditorGroup.setActive, EditorGroup.setMostRecentlyUsed, h1, h2]

theorem setActive_label (g : EditorGroup) (e : EditorInput) :
    (g.setActive e).label = g.label := by
  by_cases h1 : indexOfL (some e) g.editors = -1 <;>
    by_cases h2 : matchesB g.active (some e) = true <;>
    simp [EditorGroup.setActive, EditorGroup.setMostRecentlyUsed, h1, h2]

theorem previewOk_iff {g : EditorGroup} :
    previewOk g ↔ ∀ p, g.preview = some p → p ∈ g.editors := by
  unfold previewOk
  cases g.preview <;> simp

theorem setActive_invW {g : EditorGroup} (e : EditorInput) (h : InvW g) :
    InvW (g.setActive e) := by
  by_cases hmem : e ∈ g.editors
  · by_cases hact : g.active = some e
    · rw [setActive_of_matches hact]; exact h
    · have hm : e ∈ g.mru := h.1.mem_iff.mpr hmem
      rw [setActive_eq hmem hm hact]
      refine ⟨?_, h.2.1, ?_⟩
      · exact ((List.perm_cons_erase hm).symm.trans h.1)
      · have := h.2.2
        rw [previewOk_iff] at this ⊢
        exact this
  · rw [setActive_of_not_mem hmem]; exact h

theorem spliceDel_eq {g : EditorGroup} {e : EditorInput} {k : Nat}
    (hk : indexOfFrom? e g.editors = some k) (hm : e ∈ g.mru) :
    g.spliceDel (k : Int) =
      { g with editors := g.editors.erase e, mru := g.mru.erase e } := by
  obtain ⟨k2, hk2⟩ := indexOfFrom?_isSome hm
  unfold EditorGroup.spliceDel
  simp only [jsGet_of_indexOf hk, indexOfL_of_found hk2,
    jsSpliceRemove_of_indexOf hk, jsSpliceRemove_of_indexOf hk2]

/-! ## closeEditor characterization and invariance -/

theorem activeStep_editors (g : EditorGroup) (e : EditorInput) (b : Bool) :
    (g.closeEditorActiveStep e b).editors = g.editors := by
  unfold EditorGroup.closeEditorActiveStep
  split
  · split <;> simp [setActive_editors]
  · rfl

theorem activeStep_preview (g : EditorGroup) (e : EditorInput) (b : Bool) :
    (g.closeEditorActiveStep e b).preview = g.preview := by
  unfold EditorGroup.closeEditorActiveStep
  split
  · split <;> simp [setActive_preview]
  · rfl

theorem activeStep_id (g : EditorGroup) (e : EditorInput) (b : Bool) :
    (g.closeEditorActiveStep e b).id = g.id := by
  unfold EditorGroup.closeEditorActiveStep
  split
  · split <;> simp [setActive_id]
  · rfl

theorem activeStep_label (g : EditorGroup) (e : EditorInput) (b : Bool) :
    (g.closeEditorActiveStep e b).label = g.label := by
  unfold EditorGroup.closeEditorActiveStep
  split
  · split <;> simp [setActive_label]
  · rfl

theorem activeStep_invW {g : EditorGroup} (e : EditorInput) (b : Bool)
    (h : InvW g) : InvW (g.closeEditorActiveStep e b) := by
  unfold EditorGroup.closeEditorActiveStep
  split
  · split
    · exact setActive_invW _ h
    · exact h
  · exact h

theorem closeEditor_of_not_mem {g : EditorGroup} {e : EditorInput}
    (h : e ∉ g.editors) (b : Bool) : g.closeEditor e b = (g, none) := by
  unfold EditorGroup.closeEditor
  simp [indexOfL_eq_neg.mpr h]

/-- Explicit form of `closeEditor` on a present editor. -/
theorem closeEditor_fst_eq {g : EditorGroup} {e : EditorInput} (b : Bool)
    (hw : InvW g) (he : e ∈ g.editors) :
    (g.closeEditor e b).1 =
      { id := g.id, label := g.label,
        editors := g.editors.erase e,
        mru := (g.closeEditorActiveStep e b).mru.erase e,
        active := (g.closeEditorActiveStep e b).active,
        preview := if g.preview = some e then none else g.preview } := by
  obtain ⟨k, hk⟩ := indexOfFrom?_isSome he
  unfold EditorGroup.closeEditor
  rw [indexOfL_of_found hk, if_neg (by omega)]
  have hg1w : InvW (g.closeEditorActiveStep e b) := activeStep_invW e b hw
  have hg1ed : (g.closeEditorActiveStep e b).editors = g.editors :=
    activeStep_editors g e b
  have hg1pv : (g.closeEditorActiveStep e b).preview = g.preview :=
    activeStep_preview g e b
  by_cases hpv : g.preview = some e
  · have hmb : matchesB (g.closeEditorActiveStep e b).preview (some e) = true := by
      rw [hg1pv, hpv]; simp [matchesB]
    simp only [hmb, if_pos, if_true]
    have hk2 : indexOfFrom? e
        ({ g.closeEditorActiveStep e b with preview := none } : EditorGroup).editors
          = some k := by
      simpa [hg1ed] using hk
    have hm2 : e ∈ ({ g.closeEditorActiveStep e b with preview := none } :
        EditorGroup).mru := by
      simp only []
      exact hg1w.1.mem_iff.mpr (by rw [hg1ed]; exact he)
    rw [spliceDel_eq hk2 hm2]
    simp [hg1ed, activeStep_id, activeStep_label, hpv]
  · have hmb : matchesB (g.closeEditorActiveStep e b).preview (some e) = false := by
      rw [hg1pv]
      cases hp : g.preview with
      | none => rfl
      | some p =>
        have : p ≠ e := fun hpe => hpv (by rw [hp, hpe])
        simp [matchesB, this]
    simp only [hmb, Bool.false_eq_true, if_false]
    have hk2 : indexOfFrom? e (g.closeEditorActiveStep e b).editors = some k := by
      simpa [hg1ed] using hk
    have hm2 : e ∈ (g.closeEditorActiveStep e b).mru :=
      hg1w.1.mem_iff.mpr (by rw [hg1ed]; exact he)
    rw [spliceDel_eq hk2 hm2]
    simp [hg1ed, hg1pv, activeStep_id, activeStep_label, hpv]

theorem mru_nodup {g : EditorGroup} (h : InvW g) : g.mru.Nodup :=
  h.1.nodup_iff.mpr h.2.1

theorem closeEditor_invW {g : EditorGroup} (e : EditorInput) (b : Bool)
    (h : InvW g) : InvW (g.closeEditor e b).1 := by
  by_cases he : e ∈ g.editors
  · rw [closeEditor_fst_eq b h he]
    have hg1w : InvW (g.closeEditorActiveStep e b) := activeStep_invW e b h
    refine ⟨?_, ?_, ?_⟩
    · exact (hg1w.1.trans (by rw [activeStep_editors])).erase e
    · exact h.2.1.erase e
    · rw [previewOk_iff]
      intro p hp
      simp only [] at hp ⊢
      split at hp
      · cases hp
      · next hne =>
        rcases hpv : g.preview with _ | q
        · rw [hpv] at hp; cases hp
        · rw [hpv] at hp hne
          cases hp
          have hq : p ∈ g.editors := by
            have := h.2.2
            rw [previewOk_iff] at this
            exact this p hpv
          have hpe : p ≠ e := fun hc => hne (by rw [hc])
          exact (List.mem_erase_of_ne hpe).mpr hq
  · rw [closeEditor_of_not_mem he]
    exact h

theorem matchesB_active_some {g : EditorGroup} {e : EditorInput}
    (h : matchesB g.active (some e) = true) : g.active = some e := by
  cases ha : g.active with
  | none => rw [ha] at h; cases h
  | some a =>
    rw [ha] at h
    simp [matchesB] at h
    rw [h]

theorem closeEditor_activeOk {g : EditorGroup} (e : EditorInput)
    (h : GroupInv g) : activeOk (g.closeEditor e true).1 := by
  by_cases he : e ∈ g.editors
  · rw [closeEditor_fst_eq true h.1 he]
    by_cases hmb : matchesB g.active (some e) = true
    · have hae : g.active = some e := matchesB_active_some hmb
      have hhd : g.mru.head? = some e := by
        have ha2 := h.2
        unfold activeOk at ha2
        rw [hae] at ha2
        exact ha2
      obtain ⟨t, hmru⟩ : ∃ t, g.mru = e :: t := by
        rcases hm : g.mru with _ | ⟨x, t⟩
        · rw [hm] at hhd; cases hhd
        · rw [hm] at hhd
          simp at hhd
          exact ⟨t, by rw [hhd]⟩
      rcases ht : t with _ | ⟨b', t'⟩
      · -- only one editor: active cleared
        rw [ht] at hmru
        unfold activeOk
        simp only [EditorGroup.closeEditorActiveStep, hmb, Bool.true_and,
          if_true, hmru]
        simp [List.erase_cons_head]
      · rw [ht] at hmru
        have hnd : g.mru.Nodup := mru_nodup h.1
        rw [hmru] at hnd
        have hne : e ∉ b' :: t' := (List.nodup_cons.mp hnd).1
        have heb : e ≠ b' := fun hc => hne (hc ▸ List.mem_cons_self b' t')
        have hbm : b' ∈ g.mru := by rw [hmru]; simp
        have hbe : b' ∈ g.editors := h.1.1.mem_iff.mp hbm
        have hanb : g.active ≠ some b' := by
          rw [hae]
          intro hc
          exact heb (by injection hc)
        have hstep : g.closeEditorActiveStep e true =
            { g with active := some b', mru := b' :: g.mru.erase b' } := by
          unfold EditorGroup.closeEditorActiveStep
          rw [if_pos (by rw [hmb]; rfl), hmru]
          have hsa := setActive_eq hbe hbm hanb
          rw [hmru] at hsa
          exact hsa
        have herase : g.mru.erase b' = e :: t' := by
          rw [hmru, List.erase_cons_tail, List.erase_cons_head]
          simp [heb]
        unfold activeOk
        rw [hstep]
        simp only [herase]
        rw [List.erase_cons_tail (by simp [Ne.symm heb]), List.erase_cons_head]
        simp
    · have hstep : g.closeEditorActiveStep e true = g := by
        unfold EditorGroup.closeEditorActiveStep
        rw [if_neg (by simp [hmb])]
      rw [hstep]
      rcases ha : g.active with _ | a
      · have hmru : g.mru = [] := by
          have ha2 := h.2
          unfold activeOk at ha2
          rw [ha] at ha2
          exact ha2
        have hcontra : e ∈ g.mru := h.1.1.mem_iff.mpr he
        rw [hmru] at hcontra
        cases hcontra
      · have hhd : g.mru.head? = some a := by
          have ha2 := h.2
          unfold activeOk at ha2
          rw [ha] at ha2
          exact ha2
        have hane : a ≠ e := by
          intro hc
          rw [ha, hc] at hmb
          simp [matchesB] at hmb
        obtain ⟨t, hmru⟩ : ∃ t, g.mru = a :: t := by
          rcases hm : g.mru with _ | ⟨x, t⟩
          · rw [hm] at hhd; cases hhd
          · rw [hm] at hhd
            simp at hhd
            exact ⟨t, by rw [hhd]⟩
        unfold activeOk
        simp only [ha, hmru]
        rw [List.erase_cons_tail (by simp [hane])]
        simp
  · rw [closeEditor_of_not_mem he]
    exact h.2

theorem closeEditor_inv {g : EditorGroup} (e : EditorInput)
    (h : GroupInv g) : GroupInv (g.closeEditor e true).1 :=
  ⟨closeEditor_invW e true h.1, closeEditor_activeOk e h⟩

/-! ## spliceIns / setActive / moveEditor / pin / unpin lemmas -/

theorem spliceIns_invW {g : EditorGroup} {e : EditorInput} (i : Int)
    (h : InvW g) (hnotin : e ∉ g.editors) : InvW (g.spliceIns i e) := by
  refine ⟨?_, ?_, ?_⟩
  · exact ((List.perm_append_singleton e g.mru).trans (h.1.cons e)).trans
      (jsSpliceInsert_perm g.editors i e).symm
  · exact ((jsSpliceInsert_perm g.editors i e).nodup_iff).mpr
      (List.nodup_cons.mpr ⟨hnotin, h.2.1⟩)
  · have hp := h.2.2
    rw [previewOk_iff] at hp ⊢
    intro p hpv
    exact jsSpliceInsert_mem.mpr (Or.inr (hp p hpv))

theorem setActive_activeOk_of_ne {g : EditorGroup} {e : EditorInput}
    (hw : InvW g) (he : e ∈ g.editors) (hne : g.active ≠ some e) :
    activeOk (g.setActive e) := by
  rw [setActive_eq he (hw.1.mem_iff.mpr he) hne]
  unfold activeOk
  simp

theorem setActive_inv {g : EditorGroup} (e : EditorInput)
    (h : GroupInv g) : GroupInv (g.setActive e) := by
  by_cases he : e ∈ g.editors
  · by_cases ha : g.active = some e
    · rw [setActive_of_matches ha]; exact h
    · exact ⟨setActive_invW e h.1, setActive_activeOk_of_ne h.1 he ha⟩
  · rw [setActive_of_not_mem he]; exact h

theorem moveEditor_editors_perm {g : EditorGroup} (e : EditorInput)
    (i : Int) : (g.moveEditor e i).editors.Perm g.editors := by
  unfold EditorGroup.moveEditor
  by_cases hmem : e ∈ g.editors
  · obtain ⟨k, hk⟩ := indexOfFrom?_isSome hmem
    simp only [indexOfL_of_found hk]
    rw [if_neg (by omega)]
    simp only [jsSpliceRemove_of_indexOf hk]
    exact (jsSpliceInsert_perm _ i e).trans (List.perm_cons_erase hmem).symm
  · simp [indexOfL_eq_neg.mpr hmem]

theorem moveEditor_mru (g : EditorGroup) (e : EditorInput) (i : Int) :
    (g.moveEditor e i).mru = g.mru := by
  unfold EditorGroup.moveEditor
  by_cases hlt : indexOfL (some e) g.editors < 0 <;> simp [hlt]

theorem moveEditor_active (g : EditorGroup) (e : EditorInput) (i : Int) :
    (g.moveEditor e i).active = g.active := by
  unfold EditorGroup.moveEditor
  by_cases hlt : indexOfL (some e) g.editors < 0 <;> simp [hlt]

theorem moveEditor_preview (g : EditorGroup) (e : EditorInput) (i : Int) :
    (g.moveEditor e i).preview = g.preview := by
  unfold EditorGroup.moveEditor
  by_cases hlt : indexOfL (some e) g.editors < 0 <;> simp [hlt]

theorem moveEditor_inv {g : EditorGroup} (e : EditorInput) (i : Int)
    (h : GroupInv g) : GroupInv (g.moveEditor e i) := by
  have hperm := moveEditor_editors_perm (g := g) e i
  refine ⟨⟨?_, ?_, ?_⟩, ?_⟩
  · rw [moveEditor_mru]
    exact h.1.1.trans hperm.symm
  · exact hperm.nodup_iff.mpr h.1.2.1
  · have hp := h.1.2.2
    rw [previewOk_iff] at hp ⊢
    intro p hpv
    rw [moveEditor_preview] at hpv
    exact hperm.mem_iff.mpr (hp p hpv)
  · unfold activeOk
    rw [moveEditor_active, moveEditor_mru]
    exact h.2

theorem pin_eq (g : EditorGroup) (e : EditorInput) :
    g.pin e = if g.preview = some e then { g with preview := none } else g := by
  unfold EditorGroup.pin EditorGroup.isPreview
  rcases hp : g.preview with _ | p
  · simp [matchesB]
  · by_cases hpe : p = e
    · subst hpe
      simp [matchesB]
    · simp [matchesB, hpe]

theorem pin_inv {g : EditorGroup} (e : EditorInput) (h : GroupInv g) :
    GroupInv (g.pin e) := by
  rw [pin_eq]
  split
  · refine ⟨⟨h.1.1, h.1.2.1, ?_⟩, h.2⟩
    rw [previewOk_iff]
    intro p hp
    cases hp
  · exact h

theorem closeEditorOpt_inv {g : EditorGroup} (e : Option EditorInput)
    (h : GroupInv g) : GroupInv (g.closeEditorOpt e true).1 := by
  cases e with
  | none => exact h
  | some e => exact closeEditor_inv e h

theorem unpin_inv {g : EditorGroup} (e : EditorInput) (h : GroupInv g) :
    GroupInv (g.unpin e).1 := by
  unfold EditorGroup.unpin
  split
  · exact h
  · next hpin =>
    have hmem : e ∈ g.editors := by
      unfold EditorGroup.isPinned at hpin
      by_cases hidx : indexOfL (some e) g.editors = -1
      · rw [if_pos hidx] at hpin
        simp at hpin
      · exact by_contra fun hc => hidx (indexOfL_eq_neg.mpr hc)
    have h1 : GroupInv ({ g with preview := some e } : EditorGroup) := by
      refine ⟨⟨h.1.1, h.1.2.1, ?_⟩, h.2⟩
      rw [previewOk_iff]
      intro p hp
      cases hp
      exact hmem
    exact closeEditorOpt_inv g.preview h1

/-! ## openEditor characterizations and invariance -/

theorem openEditorNew_pinned {g : EditorGroup} {e : EditorInput}
    {opts : OpenOptions} {dir : Direction} (hpin : opts.pinned = true) :
    g.openEditorNew e opts dir =
      (if opts.active || g.active.isNone then
        (g.spliceIns (openTargetIndex g opts dir) e).setActive e
       else g.spliceIns (openTargetIndex g opts dir) e, none) := by
  unfold EditorGroup.openEditorNew
  simp [hpin]

theorem openEditorNew_noPreview {g : EditorGroup} {e : EditorInput}
    {opts : OpenOptions} {dir : Direction} (hpin : opts.pinned = false)
    (hpv : g.preview = none) :
    g.openEditorNew e opts dir =
      (if opts.active || g.active.isNone then
        ({ g.spliceIns (openTargetIndex g opts dir) e with preview := some e }
          : EditorGroup).setActive e
       else
        ({ g.spliceIns (openTargetIndex g opts dir) e with preview := some e }
          : EditorGroup), none) := by
  unfold EditorGroup.openEditorNew
  simp [hpin, hpv, matchesB]

theorem openEditorNew_withPreview {g : EditorGroup} {e p : EditorInput}
    {opts : OpenOptions} {dir : Direction} (hpin : opts.pinned = false)
    (hpv : g.preview = some p) :
    g.openEditorNew e opts dir =
      (let mA := opts.active || g.active.isNone || matchesB (some p) g.active
       let tI := openTargetIndex g opts dir
       let tI2 := if tI ≥ indexOfL (some p) g.editors then tI - 1 else tI
       let c := g.closeEditor p (!mA)
       let g4 : EditorGroup := { c.1.spliceIns tI2 e with preview := some e }
       (if mA then g4.setActive e else g4, c.2)) := by
  unfold EditorGroup.openEditorNew
  simp [hpin, hpv]

theorem active_mem_of_inv {g : EditorGroup} {a : EditorInput}
    (h : GroupInv g) (ha : g.active = some a) : a ∈ g.editors := by
  have h2 := h.2
  unfold activeOk at h2
  rw [ha] at h2
  exact h.1.1.mem_iff.mp (List.mem_of_mem_head? h2)

theorem activeStep_false (g : EditorGroup) (e : EditorInput) :
    g.closeEditorActiveStep e false = g := by
  unfold EditorGroup.closeEditorActiveStep
  simp

theorem spliceIns_activeOk {g : EditorGroup} (i : Int) (e : EditorInput)
    (h : activeOk g) (hsome : g.active.isSome) : activeOk (g.spliceIns i e) := by
  rcases ha : g.active with _ | a
  · rw [ha] at hsome; cases hsome
  · unfold activeOk at h ⊢
    unfold EditorGroup.spliceIns
    rw [ha] at h ⊢
    simp only []
    rcases hm : g.mru with _ | ⟨x, t⟩
    · rw [hm] at h; cases h
    · rw [hm] at h
      simp at h
      simp [h]

theorem closeEditor_active_of_not_matches {g : EditorGroup} {p : EditorInput}
    (b : Bool) (hw : InvW g) (hm : matchesB g.active (some p) = false) :
    (g.closeEditor p b).1.active = g.active := by
  by_cases hmem : p ∈ g.editors
  · rw [closeEditor_fst_eq b hw hmem]
    simp only []
    unfold EditorGroup.closeEditorActiveStep
    rw [hm]
    simp
  · rw [closeEditor_of_not_mem hmem]

theorem closeEditor_active_openNextFalse {g : EditorGroup} {p : EditorInput}
    (hw : InvW g) : (g.closeEditor p false).1.active = g.active := by
  by_cases hmem : p ∈ g.editors
  · rw [closeEditor_fst_eq false hw hmem]
    simp only [activeStep_false]
  · rw [closeEditor_of_not_mem hmem]

theorem openEditorExisting_inv {g : EditorGroup} (e : EditorInput)
    (opts : OpenOptions) (h : GroupInv g) :
    GroupInv (g.openEditorExisting e opts) := by
  unfold EditorGroup.openEditorExisting
  dsimp only
  have base : GroupInv (if opts.pinned = true then g.pin e else g) := by
    split
    · exact pin_inv e h
    · exact h
  split
  · apply moveEditor_inv
    split
    · exact setActive_inv e base
    · exact base
  · split
    · exact setActive_inv e base
    · exact base

theorem activeOk_of_fields {g1 g2 : EditorGroup} (h : activeOk g1)
    (ha : g2.active = g1.active) (hm : g2.mru = g1.mru) : activeOk g2 := by
  unfold activeOk at h ⊢
  rw [ha, hm]
  exact h

theorem matchesB_comm_false {a : Option EditorInput} {p : EditorInput}
    (h : matchesB (some p) a = false) : matchesB a (some p) = false := by
  rcases a with _ | x
  · rfl
  · simp [matchesB] at h ⊢
    exact fun hc => h hc.symm

theorem openEditorNew_inv {g : EditorGroup} {e : EditorInput}
    (opts : OpenOptions) (dir : Direction) (h : GroupInv g)
    (hnotin : e ∉ g.editors) : GroupInv (g.openEditorNew e opts dir).1 := by
  have hane : g.active ≠ some e := fun hc => hnotin (active_mem_of_inv h hc)
  by_cases hpin : opts.pinned = true
  · rw [openEditorNew_pinned hpin]
    dsimp only
    split
    · refine ⟨setActive_invW e (spliceIns_invW _ h.1 hnotin), ?_⟩
      exact setActive_activeOk_of_ne (spliceIns_invW _ h.1 hnotin)
        (jsSpliceInsert_mem.mpr (Or.inl rfl)) hane
    · next hcond =>
      have hsome : g.active.isSome := by
        rcases ha : g.active with _ | a
        · exact absurd (by simp [ha]) hcond
        · simp
      exact ⟨spliceIns_invW _ h.1 hnotin, spliceIns_activeOk _ _ h.2 hsome⟩
  · have hpin2 : opts.pinned = false := by
      rcases hp : opts.pinned
      · rfl
      · exact absurd hp hpin
    rcases hpv : g.preview with _ | p
    · rw [openEditorNew_noPreview hpin2 hpv]
      dsimp only
      have hw4 : InvW ({ g.spliceIns (openTargetIndex g opts dir) e with
          preview := some e } : EditorGroup) := by
        have hwi := spliceIns_invW (openTargetIndex g opts dir) h.1 hnotin
        refine ⟨hwi.1, hwi.2.1, ?_⟩
        rw [previewOk_iff]
        intro q hq
        injection hq with hq2
        rw [← hq2]
        exact jsSpliceInsert_mem.mpr (Or.inl rfl)
      split
      · exact ⟨setActive_invW e hw4,
          setActive_activeOk_of_ne hw4 (jsSpliceInsert_mem.mpr (Or.inl rfl)) hane⟩
      · next hcond =>
        have hsome : g.active.isSome := by
          rcases ha : g.active with _ | a
          · exact absurd (by simp [ha]) hcond
          · simp
        exact ⟨hw4, activeOk_of_fields
          (spliceIns_activeOk (openTargetIndex g opts dir) e h.2 hsome) rfl rfl⟩
    · rw [openEditorNew_withPreview hpin2 hpv]
      dsimp only
      by_cases hma : (opts.active || g.active.isNone || matchesB (some p) g.active)
          = true
      · simp only [hma, Bool.not_true, if_true, eq_self_iff_true]
        have hwc : InvW (g.closeEditor p false).1 := closeEditor_invW p false h.1
        have hce : e ∉ (g.closeEditor p false).1.editors := by
          by_cases hp : p ∈ g.editors
          · rw [closeEditor_fst_eq false h.1 hp]
            exact fun hc => hnotin (List.mem_of_mem_erase hc)
          · rw [closeEditor_of_not_mem hp]
            exact hnotin
        have hw4 : InvW ({ (g.closeEditor p false).1.spliceIns
            (if openTargetIndex g opts dir ≥ indexOfL (some p) g.editors then
              openTargetIndex g opts dir - 1 else openTargetIndex g opts dir) e
              with preview := some e } : EditorGroup) := by
          have hwi := spliceIns_invW (e := e)
            (if openTargetIndex g opts dir ≥ indexOfL (some p) g.editors then
              openTargetIndex g opts dir - 1 else openTargetIndex g opts dir)
            hwc hce
          refine ⟨hwi.1, hwi.2.1, ?_⟩
          rw [previewOk_iff]
          intro q hq
          injection hq with hq2
          rw [← hq2]
          exact jsSpliceInsert_mem.mpr (Or.inl rfl)
        refine ⟨setActive_invW e hw4, setActive_activeOk_of_ne hw4
          (jsSpliceInsert_mem.mpr (Or.inl rfl)) ?_⟩
        show (g.closeEditor p false).1.active ≠ some e
        rw [closeEditor_active_openNextFalse h.1]
        exact hane
      · have hma2 : (opts.active || g.active.isNone || matchesB (some p) g.active)
            = false := by
          rcases hb : (opts.active || g.active.isNone || matchesB (some p) g.active)
          · rfl
          · exact absurd hb hma
        simp only [hma2, Bool.not_false, if_false, Bool.false_eq_true]
        have hmb : matchesB g.active (some p) = false := by
          apply matchesB_comm_false
          rcases hb : matchesB (some p) g.active
          · rfl
          · rw [hb] at hma2
            simp at hma2
        have hc1 : GroupInv (g.closeEditor p true).1 := closeEditor_inv p h
        have hact : (g.closeEditor p true).1.active = g.active :=
          closeEditor_active_of_not_matches true h.1 hmb
        have hsome : (g.closeEditor p true).1.active.isSome := by
          rw [hact]
          rcases ha : g.active with _ | a
          · rw [ha] at hma2
            simp at hma2
          · simp
        have hce : e ∉ (g.closeEditor p true).1.editors := by
          by_cases hp : p ∈ g.editors
          · rw [closeEditor_fst_eq true h.1 hp]
            exact fun hc => hnotin (List.mem_of_mem_erase hc)
          · rw [closeEditor_of_not_mem hp]
            exact hnotin
        have hwi := spliceIns_invW (e := e)
          (if openTargetIndex g opts dir ≥ indexOfL (some p) g.editors then
            openTargetIndex g opts dir - 1 else openTargetIndex g opts dir)
          hc1.1 hce
        refine ⟨⟨hwi.1, hwi.2.1, ?_⟩, ?_⟩
        · rw [previewOk_iff]
          intro q hq
          injection hq with hq2
          rw [← hq2]
          exact jsSpliceInsert_mem.mpr (Or.inl rfl)
        · exact activeOk_of_fields
            (spliceIns_activeOk
              (if openTargetIndex g opts dir ≥ indexOfL (some p) g.editors then
                openTargetIndex g opts dir - 1 else openTargetIndex g opts dir)
              e hc1.2 hsome) rfl rfl

/-! ## Weak invariance for every operation, full invariance for
`openNext = true` sequences -/

theorem pin_invW {g : EditorGroup} (e : EditorInput) (hw : InvW g) :
    InvW (g.pin e) := by
  rw [pin_eq]
  split
  · refine ⟨hw.1, hw.2.1, ?_⟩
    rw [previewOk_iff]
    intro p hp
    cases hp
  · exact hw

theorem moveEditor_invW {g : EditorGroup} (e : EditorInput) (i : Int)
    (hw : InvW g) : InvW (g.moveEditor e i) := by
  have hperm := moveEditor_editors_perm (g := g) e i
  refine ⟨?_, ?_, ?_⟩
  · rw [moveEditor_mru]
    exact hw.1.trans hperm.symm
  · exact hperm.nodup_iff.mpr hw.2.1
  · have hp := hw.2.2
    rw [previewOk_iff] at hp ⊢
    intro p hpv
    rw [moveEditor_preview] at hpv
    exact hperm.mem_iff.mpr (hp p hpv)

theorem openEditorExisting_invW {g : EditorGroup} (e : EditorInput)
    (opts : OpenOptions) (hw : InvW g) : InvW (g.openEditorExisting e opts) := by
  unfold EditorGroup.openEditorExisting
  dsimp only
  have base : InvW (if opts.pinned = true then g.pin e else g) := by
    split
    · exact pin_invW e hw
    · exact hw
  split
  · apply moveEditor_invW
    split
    · exact setActive_invW e base
    · exact base
  · split
    · exact setActive_invW e base
    · exact base

theorem openEditorNew_invW {g : EditorGroup} {e : EditorInput}
    (opts : OpenOptions) (dir : Direction) (hw : InvW g)
    (hnotin : e ∉ g.editors) : InvW (g.openEditorNew e opts dir).1 := by
  by_cases hpin : opts.pinned = true
  · rw [openEditorNew_pinned hpin]
    dsimp only
    split
    · exact setActive_invW e (spliceIns_invW _ hw hnotin)
    · exact spliceIns_invW _ hw hnotin
  · have hpin2 : opts.pinned = false := by
      rcases hp : opts.pinned
      · rfl
      · exact absurd hp hpin
    rcases hpv : g.preview with _ | p
    · rw [openEditorNew_noPreview hpin2 hpv]
      dsimp only
      have hw4 : InvW ({ g.spliceIns (openTargetIndex g opts dir) e with
          preview := some e } : EditorGroup) := by
        have hwi := spliceIns_invW (openTargetIndex g opts dir) hw hnotin
        refine ⟨hwi.1, hwi.2.1, ?_⟩
        rw [previewOk_iff]
        intro q hq
        injection hq with hq2
        rw [← hq2]
        exact jsSpliceInsert_mem.mpr (Or.inl rfl)
      split
      · exact setActive_invW e hw4
      · exact hw4
    · rw [openEditorNew_withPreview hpin2 hpv]
      dsimp only
      have hstep : ∀ b : Bool, InvW ({ (g.closeEditor p b).1.spliceIns
          (if openTargetIndex g opts dir ≥ indexOfL (some p) g.editors then
            openTargetIndex g opts dir - 1 else openTargetIndex g opts dir) e
            with preview := some e } : EditorGroup) := by
        intro b
        have hwc : InvW (g.closeEditor p b).1 := closeEditor_invW p b hw
        have hce : e ∉ (g.closeEditor p b).1.editors := by
          by_cases hp2 : p ∈ g.editors
          · rw [closeEditor_fst_eq b hw hp2]
            exact fun hc => hnotin (List.mem_of_mem_erase hc)
          · rw [closeEditor_of_not_mem hp2]
            exact hnotin
        have hwi := spliceIns_invW (e := e)
          (if openTargetIndex g opts dir ≥ indexOfL (some p) g.editors then
            openTargetIndex g opts dir - 1 else openTargetIndex g opts dir)
          hwc hce
        refine ⟨hwi.1, hwi.2.1, ?_⟩
        rw [previewOk_iff]
        intro q hq
        injection hq with hq2
        rw [← hq2]
        exact jsSpliceInsert_mem.mpr (Or.inl rfl)
      split
      · exact setActive_invW e (hstep _)
      · exact hstep _

theorem openEditor_invW {g : EditorGroup} (e : EditorInput)
    (opts : OpenOptions) (dir : Direction) (hw : InvW g) :
    InvW (g.openEditor e opts dir).1 := by
  unfold EditorGroup.openEditor
  by_cases hmem : e ∈ g.editors
  · rw [if_neg (indexOfL_ne_neg hmem)]
    exact openEditorExisting_invW e opts hw
  · rw [if_pos (indexOfL_eq_neg.mpr hmem)]
    exact openEditorNew_invW opts dir hw hmem

theorem openEditor_inv {g : EditorGroup} (e : EditorInput)
    (opts : OpenOptions) (dir : Direction) (h : GroupInv g) :
    GroupInv (g.openEditor e opts dir).1 := by
  unfold EditorGroup.openEditor
  by_cases hmem : e ∈ g.editors
  · rw [if_neg (indexOfL_ne_neg hmem)]
    exact openEditorExisting_inv e opts h
  · rw [if_pos (indexOfL_eq_neg.mpr hmem)]
    exact openEditorNew_inv opts dir h hmem

theorem closeEditorOpt_invW {g : EditorGroup} (e : Option EditorInput)
    (b : Bool) (hw : InvW g) : InvW (g.closeEditorOpt e b).1 := by
  cases e with
  | none => exact hw
  | some e => exact closeEditor_invW e b hw

theorem unpin_invW {g : EditorGroup} (e : EditorInput) (hw : InvW g) :
    InvW (g.unpin e).1 := by
  unfold EditorGroup.unpin
  split
  · exact hw
  · next hpin =>
    have hmem : e ∈ g.editors := by
      unfold EditorGroup.isPinned at hpin
      by_cases hidx : indexOfL (some e) g.editors = -1
      · rw [if_pos hidx] at hpin
        simp at hpin
      · exact by_contra fun hc => hidx (indexOfL_eq_neg.mpr hc)
    have h1 : InvW ({ g with preview := some e } : EditorGroup) := by
      refine ⟨hw.1, hw.2.1, ?_⟩
      rw [previewOk_iff]
      intro p hpv
      cases hpv
      exact hmem
    exact closeEditorOpt_invW g.preview true h1

theorem closeList_invW {l : List EditorInput} :
    ∀ {g : EditorGroup}, InvW g → InvW (g.closeList l).1 := by
  induction l with
  | nil => intro g hw; exact hw
  | cons e es ih =>
    intro g hw
    unfold EditorGroup.closeList
    exact ih (closeEditor_invW e true hw)

theorem closeList_inv {l : List EditorInput} :
    ∀ {g : EditorGroup}, GroupInv g → GroupInv (g.closeList l).1 := by
  induction l with
  | nil => intro g h; exact h
  | cons e es ih =>
    intro g h
    unfold EditorGroup.closeList
    exact ih (closeEditor_inv e h)

theorem closeLeftLoop_invW (i : Nat) :
    ∀ {g : EditorGroup}, InvW g → InvW (g.closeLeftLoop i).1 := by
  induction i with
  | zero =>
    intro g hw
    unfold EditorGroup.closeLeftLoop
    exact closeEditorOpt_invW _ true hw
  | succ i ih =>
    intro g hw
    unfold EditorGroup.closeLeftLoop
    exact ih (closeEditorOpt_invW _ true hw)

theorem closeLeftLoop_inv (i : Nat) :
    ∀ {g : EditorGroup}, GroupInv g → GroupInv (g.closeLeftLoop i).1 := by
  induction i with
  | zero =>
    intro g h
    unfold EditorGroup.closeLeftLoop
    exact closeEditorOpt_inv _ h
  | succ i ih =>
    intro g h
    unfold EditorGroup.closeLeftLoop
    exact ih (closeEditorOpt_inv _ h)

theorem closeRightLoop_invW : ∀ (i index : Nat) {g : EditorGroup},
    InvW g → InvW (g.closeRightLoop i index).1 := by
  intro i
  induction i using Nat.strong_induction_on with
  | _ i ih =>
    intro index g hw
    rw [EditorGroup.closeRightLoop]
    split
    · next hgt =>
      dsimp only
      exact ih (i - 1) (by omega) index (closeEditorOpt_invW _ true hw)
    · exact hw

theorem closeRightLoop_inv : ∀ (i index : Nat) {g : EditorGroup},
    GroupInv g → GroupInv (g.closeRightLoop i index).1 := by
  intro i
  induction i using Nat.strong_induction_on with
  | _ i ih =>
    intro index g h
    rw [EditorGroup.closeRightLoop]
    split
    · next hgt =>
      dsimp only
      exact ih (i - 1) (by omega) index (closeEditorOpt_inv _ h)
    · exact h

theorem closeEditors_invW {g : EditorGroup} (x : EditorInput)
    (d : Option Direction) (hw : InvW g) : InvW (g.closeEditors x d).1 := by
  unfold EditorGroup.closeEditors
  split
  · dsimp only
    split
    · exact hw
    · split
      · exact hw
      · exact closeLeftLoop_invW _ hw
  · dsimp only
    split
    · exact hw
    · exact closeRightLoop_invW _ _ hw
  · dsimp only
    split
    · exact hw
    · exact closeList_invW hw

theorem closeEditors_inv {g : EditorGroup} (x : EditorInput)
    (d : Option Direction) (h : GroupInv g) : GroupInv (g.closeEditors x d).1 := by
  unfold EditorGroup.closeEditors
  split
  · dsimp only
    split
    · exact h
    · split
      · exact h
      · exact closeLeftLoop_inv _ h
  · dsimp only
    split
    · exact h
    · exact closeRightLoop_inv _ _ h
  · dsimp only
    split
    · exact h
    · exact closeList_inv h

theorem closeAllEditors_invW {g : EditorGroup} (hw : InvW g) :
    InvW g.closeAllEditors.1 := by
  unfold EditorGroup.closeAllEditors
  exact closeEditorOpt_invW _ true (closeList_invW hw)

theorem closeAllEditors_inv {g : EditorGroup} (h : GroupInv g) :
    GroupInv g.closeAllEditors.1 := by
  unfold EditorGroup.closeAllEditors
  exact closeEditorOpt_inv _ (closeList_inv h)

/-! ## Operation sequences on a group -/

theorem activeInEditors_of_inv {g : EditorGroup} (h : GroupInv g) :
    activeInEditors g := by
  unfold activeInEditors
  rcases ha : g.active with _ | a
  · trivial
  · exact active_mem_of_inv h ha

theorem mkGroup_inv (nid : Nat) (label : String) : GroupInv (mkGroup nid label) := by
  refine ⟨⟨List.Perm.refl _, List.nodup_nil, ?_⟩, ?_⟩
  · rw [previewOk_iff]
    intro p hp
    cases hp
  · unfold activeOk mkGroup
    rfl

theorem applyOp_invW {g : EditorGroup} (op : GroupOp) (hw : InvW g) :
    InvW (applyOp g op) := by
  cases op with
  | openEditor e opts dir => exact openEditor_invW e opts dir hw
  | closeEditor e b => exact closeEditor_invW e b hw
  | closeEditors x d => exact closeEditors_invW x d hw
  | closeAllEditors => exact closeAllEditors_invW hw
  | moveEditor e i => exact moveEditor_invW e i hw
  | setActive e => exact setActive_invW e hw
  | pin e => exact pin_invW e hw
  | unpin e => exact unpin_invW e hw

theorem applyOp_inv {g : EditorGroup} (op : GroupOp) (h : GroupInv g)
    (hop : opOpenNextTrue op = true) : GroupInv (applyOp g op) := by
  cases op with
  | openEditor e opts dir => exact openEditor_inv e opts dir h
  | closeEditor e b =>
    have hb : b = true := hop
    rw [hb] at *
    exact closeEditor_inv e h
  | closeEditors x d => exact closeEditors_inv x d h
  | closeAllEditors => exact closeAllEditors_inv h
  | moveEditor e i => exact moveEditor_inv e i h
  | setActive e => exact setActive_inv e h
  | pin e => exact pin_inv e h
  | unpin e => exact unpin_inv e h

theorem applyOps_invW {ops : List GroupOp} :
    ∀ {g : EditorGroup}, InvW g → InvW (applyOps g ops) := by
  induction ops with
  | nil => intro g hw; exact hw
  | cons op ops ih =>
    intro g hw
    exact ih (applyOp_invW op hw)

theorem applyOps_inv {ops : List GroupOp} :
    ∀ {g : EditorGroup}, GroupInv g → (ops.all opOpenNextTrue) = true →
      GroupInv (applyOps g ops) := by
  induction ops with
  | nil => intro g h _; exact h
  | cons op ops ih =>
    intro g h hall
    rw [List.all_cons, Bool.and_eq_true] at hall
    exact ih (applyOp_inv op h hall.1) hall.2

/-! ## Claim C1 -/

/-- C1 (counterexample): the claim as stated is false. Starting from an empty
group, `openEditor A` followed by `closeEditor A (openNext := false)` leaves
`active = some A` while `editors` is empty, so `active` is neither null nor an
element of `editors`. -/
theorem C1_counterexample :
    ¬ activeInEditors (applyOps (mkGroup 0 "one")
      [GroupOp.openEditor (.base 1 "file" "a" false) {} Direction.RIGHT,
       GroupOp.closeEditor (.base 1 "file" "a" false) false]) := by
  decide

/-- C1 (amended): for every sequence of public group operations starting from
an empty group, `editors.length = mru.length`, `mru` is a permutation of
`editors`, the preview is null or an element of `editors` and there is at most
one preview; the remaining conjunct of the claim — `active` is null or an
element of `editors` — holds provided every `closeEditor` in the sequence uses
the default `openNext = true` (it fails otherwise, see the counterexample). -/
theorem C1_amended (nid : Nat) (label : String) (ops : List GroupOp) :
    (applyOps (mkGroup nid label) ops).editors.length =
        (applyOps (mkGroup nid label) ops).mru.length ∧
    (applyOps (mkGroup nid label) ops).mru.Perm
        (applyOps (mkGroup nid label) ops).editors ∧
    previewOk (applyOps (mkGroup nid label) ops) ∧
    (∀ p q, (applyOps (mkGroup nid label) ops).preview = some p →
        (applyOps (mkGroup nid label) ops).preview = some q → p = q) ∧
    ((ops.all opOpenNextTrue) = true →
        activeInEditors (applyOps (mkGroup nid label) ops)) := by
  have hw : InvW (applyOps (mkGroup nid label) ops) :=
    applyOps_invW (mkGroup_inv nid label).1
  refine ⟨hw.1.length_eq.symm, hw.1, hw.2.2, ?_, ?_⟩
  · intro p q hp hq
    rw [hp] at hq
    injection hq
  · intro hall
    exact activeInEditors_of_inv (applyOps_inv (mkGroup_inv nid label) hall)

/-- C1 (witness): the amended invariant evaluated on a concrete sequence. -/
theorem C1_amended_witness :
    activeInEditors (applyOps (mkGroup 0 "one")
      [GroupOp.openEditor (.base 1 "file" "a" false) {} Direction.RIGHT]) :=
  (C1_amended 0 "one"
    [GroupOp.openEditor (.base 1 "file" "a" false) {} Direction.RIGHT]).2.2.2.2
    (by decide)

/-! ## Claim C2 -/

/-- C2: evaluating `onEditorClosed` with a full 10-entry
`recentlyClosedEditors` buffer and a newly closed pinned serializable editor:
the buffer is returned unchanged — the 10 old entries are kept and the new
(most recent) entry is dropped, because the code caps the buffer with
`slice(0, 10)` after the push. This contradicts the claim's oldest-first
eviction (the buffer bound of 10 itself does hold). -/
theorem C2_overflow_eval :
    (StacksModel.onEditorClosedHandler []
      ((List.range 10).map (fun i => (toString i, "v"))) regSample
      ⟨.base 1 "file" "new-entry" false, true⟩).2 =
        (List.range 10).map (fun i => (toString i, "v")) ∧
    ("file", "new-entry") ∉
      (StacksModel.onEditorClosedHandler []
        ((List.range 10).map (fun i => (toString i, "v"))) regSample
        ⟨.base 1 "file" "new-entry" false, true⟩).2 := by
  constructor
  · rfl
  · decide

/-! ## Claim C3 -/

theorem modelSetActive_groups (m : StacksModel) (g : EditorGroup) :
    (m.setActive g).groups = m.groups := by
  unfold StacksModel.setActive
  split <;> rfl

/-- C3 (counterexample): `openGroup` with index 0 on a model holding one group
replaces that group instead of inserting before it — the list is not one
longer, and the pre-existing group is gone
(`this._groups[index] = group` is an assignment, not a splice). -/
theorem C3_counterexample :
    ¬ (((StacksModel.openGroup
        { groups := [mkGroup 6 "one"], activeGroupId := some 6,
          recentlyClosedEditors := [] } "new" false (some 0) 7).groups.length =
        1 + 1) ∧
      mkGroup 6 "one" ∈ (StacksModel.openGroup
        { groups := [mkGroup 6 "one"], activeGroupId := some 6,
          recentlyClosedEditors := [] } "new" false (some 0) 7).groups) := by
  decide

/-- C3 (amended): `openGroup(label, activate, index)` with a numeric index
`0 ≤ i ≤ groups.length` assigns the freshly created group to slot `i` of the
groups array: when `i < groups.length` it replaces the group previously at
`i` (the length is unchanged); when `i = groups.length` it appends (the length
grows by one). -/
theorem C3_amended (m : StacksModel) (label : String) (activate : Bool)
    (i : Int) (nid : Nat) (h0 : 0 ≤ i) :
    (i.toNat < m.groups.length →
      (m.openGroup label activate (some i) nid).groups =
        m.groups.set i.toNat (mkGroup nid label)) ∧
    (i.toNat = m.groups.length →
      (m.openGroup label activate (some i) nid).groups =
        m.groups ++ [mkGroup nid label]) := by
  unfold StacksModel.openGroup
  dsimp only
  constructor
  · intro hlt
    split
    · rw [modelSetActive_groups]
      unfold jsArraySet
      rw [if_neg (by omega), if_pos hlt]
    · unfold jsArraySet
      rw [if_neg (by omega), if_pos hlt]
  · intro heq
    split
    · rw [modelSetActive_groups]
      unfold jsArraySet
      rw [if_neg (by omega), if_neg (by omega)]
    · unfold jsArraySet
      rw [if_neg (by omega), if_neg (by omega)]

/-- C3 (witness): the amended statement evaluated at index 0 of a one-group
model. -/
theorem C3_amended_witness :
    (StacksModel.openGroup
      { groups := [mkGroup 6 "one"], activeGroupId := some 6,
        recentlyClosedEditors := [] } "new" false (some 0) 7).groups =
      [mkGroup 6 "one"].set 0 (mkGroup 7 "new") :=
  (C3_amended
    { groups := [mkGroup 6 "one"], activeGroupId := some 6,
      recentlyClosedEditors := [] } "new" false 0 7 (by decide)).1 (by decide)

/-! ## Claim C8 -/

theorem findIdxGroup_of_not_mem {gr : EditorGroup} {l : List EditorGroup}
    (h : gr ∉ l) : l.findIdx? (fun x => x = gr) = none := by
  rw [List.findIdx?_eq_none_iff]
  intro x hx
  simp only [decide_eq_false_iff_not]
  intro hc
  exact h (hc ▸ hx)

/-- C8 (counterexample): the model-level `setActive` performs no membership
check — called with a group absent from the model's group list, it still
changes `activeGroup`, so the claim's "leave the model's entire state
unchanged" fails for it. -/
theorem C8_counterexample :
    mkGroup 7 "stale" ∉
      ({ groups := [mkGroup 6 "one"], activeGroupId := some 6,
         recentlyClosedEditors := [] } : StacksModel).groups ∧
    ({ groups := [mkGroup 6 "one"], activeGroupId := some 6,
       recentlyClosedEditors := [] } : StacksModel).setActive
        (mkGroup 7 "stale") ≠
      ({ groups := [mkGroup 6 "one"], activeGroupId := some 6,
         recentlyClosedEditors := [] } : StacksModel) := by
  decide

/-- C8 (amended): the group-level `closeEditor`, `moveEditor` and `setActive`
are no-ops for an editor not present in the group, and the model-level
`closeGroup` and `moveGroup` are no-ops for a group not present in the group
list; the model-level `setActive`, however, performs no membership check: it
is a no-op exactly when the group is already active, and otherwise sets
`activeGroup` to the given group even when the group is absent. -/
theorem C8_amended (g : EditorGroup) (e : EditorInput) (b : Bool) (i : Int)
    (reg : EditorRegistry) (m : StacksModel) (gr : EditorGroup) :
    (e ∉ g.editors →
      (g.closeEditor e b = (g, none) ∧ g.moveEditor e i = g ∧
        g.setActive e = g)) ∧
    (gr ∉ m.groups → (m.closeGroup gr reg = m ∧ m.moveGroup gr i = m)) ∧
    (m.activeGroupId = some gr.id → m.setActive gr = m) ∧
    (m.activeGroupId ≠ some gr.id →
      m.setActive gr = { m with activeGroupId := some gr.id }) := by
  refine ⟨?_, ?_, ?_, ?_⟩
  · intro hne
    refine ⟨closeEditor_of_not_mem hne b, ?_, setActive_of_not_mem hne⟩
    unfold EditorGroup.moveEditor
    rw [if_pos]
    simp only [indexOfL, indexOfFrom?_eq_none.mpr hne]
    omega
  · intro hng
    constructor
    · unfold StacksModel.closeGroup
      rw [findIdxGroup_of_not_mem hng]
    · unfold StacksModel.moveGroup
      rw [findIdxGroup_of_not_mem hng]
  · intro ha
    unfold StacksModel.setActive
    rw [if_pos ha]
  · intro ha
    unfold StacksModel.setActive
    rw [if_neg ha]

/-- C8 (witness): the no-op behaviours evaluated on concrete stale
references. -/
theorem C8_amended_witness :
    (mkGroup 0 "g").closeEditor (.base 1 "f" "a" false) true =
      (mkGroup 0 "g", none) ∧
    ({ groups := [mkGroup 6 "one"], activeGroupId := some 6,
       recentlyClosedEditors := [] } : StacksModel).moveGroup
        (mkGroup 7 "stale") 0 =
      { groups := [mkGroup 6 "one"], activeGroupId := some 6,
        recentlyClosedEditors := [] } :=
  ⟨((C8_amended (mkGroup 0 "g") (.base 1 "f" "a" false) true 0 regSample
      { groups := [mkGroup 6 "one"], activeGroupId := some 6,
        recentlyClosedEditors := [] } (mkGroup 7 "stale")).1
    (by decide)).1,
   ((C8_amended (mkGroup 0 "g") (.base 1 "f" "a" false) true 0 regSample
      { groups := [mkGroup 6 "one"], activeGroupId := some 6,
        recentlyClosedEditors := [] } (mkGroup 7 "stale")).2.1
    (by decide)).2⟩

/-! ## Claim C4 -/

theorem sub_ne_diff (k : Nat) (kind payload : String) (d : Bool)
    (o md : EditorInput) :
    o ≠ EditorInput.diff k kind payload d o md ∧
    md ≠ EditorInput.diff k kind payload d o md := by
  constructor
  · intro hc
    have hlt : sizeOf o < sizeOf (EditorInput.diff k kind payload d o md) := by
      simp only [EditorInput.diff.sizeOf_spec]
      omega
    rw [← hc] at hlt
    exact lt_irrefl _ hlt
  · intro hc
    have hlt : sizeOf md < sizeOf (EditorInput.diff k kind payload d o md) := by
      simp only [EditorInput.diff.sizeOf_spec]
      omega
    rw [← hc] at hlt
    exact lt_irrefl _ hlt

/-- C4: for every close event processed by the model's `onEditorClosed`
handler, the event's editor is physically closed exactly when it is no longer
open in any group; every handle physically closed by the handler is
unreferenced at that moment; and for a diff composite that is itself
unreferenced, each of its two sub-inputs is closed independently exactly when
that sub-input is unreferenced. -/
theorem C4_close_when_unreferenced (groups : List EditorGroup)
    (rc : List SerializedEditorInput) (reg : EditorRegistry)
    (ev : GroupEvent) :
    (StacksModel.isOpen groups ev.editor = true →
      (StacksModel.onEditorClosedHandler groups rc reg ev).1 = []) ∧
    (StacksModel.isOpen groups ev.editor = false →
      ev.editor ∈ (StacksModel.onEditorClosedHandler groups rc reg ev).1) ∧
    (∀ x ∈ (StacksModel.onEditorClosedHandler groups rc reg ev).1,
      StacksModel.isOpen groups x = false) ∧
    (∀ k kind payload d o md,
      ev.editor = EditorInput.diff k kind payload d o md →
      StacksModel.isOpen groups ev.editor = false →
      ((o ∈ (StacksModel.onEditorClosedHandler groups rc reg ev).1 ↔
          StacksModel.isOpen groups o = false) ∧
       (md ∈ (StacksModel.onEditorClosedHandler groups rc reg ev).1 ↔
          StacksModel.isOpen groups md = false))) := by
  refine ⟨?_, ?_, ?_, ?_⟩
  · intro hopen
    unfold StacksModel.onEditorClosedHandler
    simp [hopen]
  · intro hcl
    unfold StacksModel.onEditorClosedHandler
    simp [hcl]
  · intro x hx
    unfold StacksModel.onEditorClosedHandler at hx
    rcases hb : StacksModel.isOpen groups ev.editor
    · rcases hev : ev.editor with ⟨k, kind, payload, d⟩ | ⟨k, kind, payload, d, o, md⟩
    
      · rw [hev] at hx hb
        simp [hb] at hx
        rw [hx]
        exact hb
      · rw [hev] at hx hb
        rcases hbo : StacksModel.isOpen groups o <;>
          rcases hbm : StacksModel.isOpen groups md <;>
          simp [hb, hbo, hbm] at hx <;>
          first
          | (rw [hx]; exact hb)
          | (rcases hx with hx | hx
             · rw [hx]; exact hb
             · rw [hx]; first | exact hbo | exact hbm)
          | (rcases hx with hx | hx | hx
             · rw [hx]; exact hb
             · rw [hx]; exact hbo
             · rw [hx]; exact hbm)
    · rw [hb] at hx
      simp at hx
  · intro k kind payload d o md hev hcl
    have hne := sub_ne_diff k kind payload d o md
    have hcl2 : StacksModel.isOpen groups
        (EditorInput.diff k kind payload d o md) = false := hev ▸ hcl
    unfold StacksModel.onEditorClosedHandler
    rw [hev]
    simp only [hcl2, Bool.not_false, if_true]
    constructor
    · constructor
      · intro hx
        rcases hbo : StacksModel.isOpen groups o
        · rfl
        · rw [List.mem_cons] at hx
          rcases hx with hx | hx
          · exact absurd hx hne.1
          · rw [List.mem_append] at hx
            rcases hbm : StacksModel.isOpen groups md <;>
              simp [hbo, hbm] at hx
            rw [hx] at hbo
            rw [hbo] at hbm
            cases hbm
      · intro ho
        apply List.mem_cons_of_mem
        rw [List.mem_append]
        left
        simp [ho]
    · constructor
      · intro hx
        rcases hbm : StacksModel.isOpen groups md
        · rfl
        · rw [List.mem_cons] at hx
          rcases hx with hx | hx
          · exact absurd hx hne.2
          · rw [List.mem_append] at hx
            rcases hbo : StacksModel.isOpen groups o <;>
              simp [hbo, hbm] at hx
            rw [hx] at hbm
            rw [hbm] at hbo
            cases hbo
      · intro hm
        apply List.mem_cons_of_mem
        rw [List.mem_append]
        right
        simp [hm]

/-- C4 (witness): a diff handle unreferenced in an empty model is physically
closed together with its sub-inputs. -/
theorem C4_witness :
    (EditorInput.diff 1 "diffKind" "" false (.base 2 "f" "x" false)
      (.base 3 "f" "y" false)) ∈
      (StacksModel.onEditorClosedHandler [] [] regSample
        ⟨EditorInput.diff 1 "diffKind" "" false (.base 2 "f" "x" false)
          (.base 3 "f" "y" false), true⟩).1 :=
  (C4_close_when_unreferenced [] [] regSample
    ⟨EditorInput.diff 1 "diffKind" "" false (.base 2 "f" "x" false)
      (.base 3 "f" "y" false), true⟩).2.1 (by decide)

/-! ## Claim C7 -/

/-- C7: `doValidate` returns the distinct codes 1..7 for the seven structural
violations — each fires when it holds and no earlier check fired — and 0 when
none holds; whenever the code is non-zero, `load` discards the entire blob
and the model is the empty model (nothing partially applied; the embedding is
a total function, so no exception reaches the caller). -/
theorem C7_validate_load (s : SerializedStacksModel) (reg : EditorRegistry) :
    ((s.groups.length = 0 ∧ s.active.isSome = true) →
      StacksModel.doValidate s = 1) ∧
    ((s.groups.length ≠ 0 ∧
        (match s.active with
         | none => True
         | some i => jsGet s.groups i = none)) →
      StacksModel.doValidate s = 2) ∧
    ((match s.active with
      | none => s.groups.length = 0
      | some i => s.groups.length ≠ 0 ∧ jsGet s.groups i ≠ none) →
      ((s.groups.length > 3 → StacksModel.doValidate s = 3) ∧
       (s.groups.length ≤ 3 →
        (((∃ g ∈ s.groups, g.editors.length = 0) →
            StacksModel.doValidate s = 4) ∧
         ((∀ g ∈ s.groups, g.editors.length ≠ 0) →
          (((∃ g ∈ s.groups, g.editors.length ≠ g.mru.length) →
              StacksModel.doValidate s = 5) ∧
           ((∀ g ∈ s.groups, g.editors.length = g.mru.length) →
            (((∃ g ∈ s.groups,
                (match g.preview with
                 | some i => jsGet g.editors i = none
                 | none => False)) → StacksModel.doValidate s = 6) ∧
             ((∀ g ∈ s.groups,
                (match g.preview with
                 | some i => jsGet g.editors i ≠ none
                 | none => True)) →
              (((∃ g ∈ s.groups, g.label = "") →
                  StacksModel.doValidate s = 7) ∧
               ((∀ g ∈ s.groups, g.label ≠ "") →
                  StacksModel.doValidate s = 0))))))))))) ∧
    (StacksModel.doValidate s ≠ 0 → StacksModel.load reg s = emptyModel) := by
  have hload : StacksModel.doValidate s ≠ 0 →
      StacksModel.load reg s = emptyModel := by
    intro h
    unfold StacksModel.load
    rw [if_pos h]
  refine ⟨?_, ?_, ?_, hload⟩
  · rintro ⟨h1, h2⟩
    unfold StacksModel.doValidate
    rw [if_pos (by simp [h1, h2])]
  · rintro ⟨h1, h2⟩
    unfold StacksModel.doValidate
    rw [if_neg (by simp [h1]), if_pos]
    rcases ha : s.active with _ | i
    · simp [h1]
    · rw [ha] at h2
      simp [h1, h2, Option.isNone]
  · intro hok
    have hc1 : ¬((s.groups.length = 0 && s.active.isSome) = true) := by
      rcases ha : s.active with _ | i
      · simp [ha]
      · rw [ha] at hok
        simp [hok.1]
    have hc2 : ¬((s.groups.length ≠ 0 &&
        (match s.active with
         | none => true
         | some i => (jsGet s.groups i).isNone)) = true) := by
      rcases ha : s.active with _ | i
      · rw [ha] at hok
        simp [hok]
      · rw [ha] at hok
        rcases hj : jsGet s.groups i with _ | g
        · exact absurd hj hok.2
        · simp [hj, Option.isNone]
    constructor
    · intro h3
      unfold StacksModel.doValidate
      rw [if_neg hc1, if_neg hc2, if_pos (by simp [h3])]
    · intro h3
      constructor
      · intro h4
        unfold StacksModel.doValidate
        rw [if_neg hc1, if_neg hc2, if_neg (by simp; omega), if_pos]
        simp only [List.any_eq_true, decide_eq_true_eq]
        exact h4
      · intro h4
        have hc4 : ¬((s.groups.any fun g => g.editors.length = 0) = true) := by
          simp only [List.any_eq_true, decide_eq_true_eq]
          push_neg
          exact fun g hg => h4 g hg
        constructor
        · intro h5
          unfold StacksModel.doValidate
          rw [if_neg hc1, if_neg hc2, if_neg (by simp; omega), if_neg hc4,
            if_pos]
          simp only [List.any_eq_true, decide_eq_true_eq]
          exact h5
        · intro h5
          have hc5 : ¬((s.groups.any fun g =>
              g.editors.length ≠ g.mru.length) = true) := by
            simp only [List.any_eq_true, decide_eq_true_eq]
            push_neg
            exact fun g hg => h5 g hg
          constructor
          · intro h6
            unfold StacksModel.doValidate
            rw [if_neg hc1, if_neg hc2, if_neg (by simp; omega), if_neg hc4,
              if_neg hc5, if_pos]
            simp only [List.any_eq_true]
            obtain ⟨g, hg, hbad⟩ := h6
            refine ⟨g, hg, ?_⟩
            rcases hp : g.preview with _ | i
            · simp only [hp] at hbad
            · simp only [hp] at hbad
              simp [hp, hbad, Option.isNone]
          · intro h6
            have hc6 : ¬((s.groups.any fun g =>
                (match g.preview with
                 | some i => (jsGet g.editors i).isNone
                 | none => false)) = true) := by
              simp only [List.any_eq_true]
              rintro ⟨g, hg, hbad⟩
              have hgood := h6 g hg
              rcases hp : g.preview with _ | i
              · simp [hp] at hbad
              · simp only [hp] at hgood hbad
                rcases hj : jsGet g.editors i with _ | x
                · exact hgood hj
                · rw [hj] at hbad
                  simp at hbad
            constructor
            · intro h7
              unfold StacksModel.doValidate
              rw [if_neg hc1, if_neg hc2, if_neg (by simp; omega), if_neg hc4,
                if_neg hc5, if_neg hc6, if_pos]
              simp only [List.any_eq_true, decide_eq_true_eq]
              exact h7
            · intro h7
              have hc7 : ¬((s.groups.any fun g => g.label = "") = true) := by
                simp only [List.any_eq_true, decide_eq_true_eq]
                push_neg
                exact fun g hg => h7 g hg
              unfold StacksModel.doValidate
              rw [if_neg hc1, if_neg hc2, if_neg (by simp; omega), if_neg hc4,
                if_neg hc5, if_neg hc6, if_neg hc7]

/-- C7 (witness): a blob with an empty group yields code 4 and is discarded by
`load`. -/
theorem C7_witness :
    StacksModel.doValidate blobEmptyGroup = 4 ∧
    StacksModel.load regSample blobEmptyGroup = emptyModel := by
  constructor
  · exact (((C7_validate_load blobEmptyGroup regSample).2.2.1
      (by constructor <;> decide)).2 (by decide)).1 (by decide)
  · exact (C7_validate_load blobEmptyGroup regSample).2.2.2 (by decide)

/-! ## Claim C10 -/

theorem viewOpenEditorOptions_pinned (partOptions : PartOptions)
    (g : EditorGroup) (e : EditorInput) (options : Option ViewOpenOptions) :
    (viewOpenEditorOptions partOptions g e options).pinned =
      (!partOptions.enablePreview || e.isDirty ||
        (match options with | some o => o.pinned | none => false) ||
        (match options with | some o => o.index.isSome | none => false)) := by
  unfold viewOpenEditorOptions
  dsimp only
  split <;> rfl

theorem openEditorExisting_preview (g : EditorGroup) (e : EditorInput)
    (opts : OpenOptions) :
    (g.openEditorExisting e opts).preview =
      (if opts.pinned = true then g.pin e else g).preview := by
  unfold EditorGroup.openEditorExisting
  dsimp only
  split
  · rw [moveEditor_preview]
    split
    · rw [setActive_preview]
    · rfl
  · split
    · rw [setActive_preview]
    · rfl

theorem pin_preview_not_matches (g : EditorGroup) (e : EditorInput) :
    matchesB (g.pin e).preview (some e) = false := by
  rw [pin_eq]
  split
  · rfl
  · next hne =>
    rcases hp : g.preview with _ | p
    · rfl
    · have : p ≠ e := fun hc => hne (by rw [hp, hc])
      simp [matchesB, this]

/-- C10: in the view layer a dirty document is never opened as, and never
remains, the preview editor: `doOpenEditor` computes `pinned = true` whenever
the opened editor is dirty (and also whenever an explicit index is given or
preview editors are disabled); opening a dirty editor through the view leaves
it non-preview in the group; and `onDidEditorBecomeDirty` pins the editor so
that it is no longer the preview. -/
theorem C10_dirty_never_preview (partOptions : PartOptions) (g : EditorGroup)
    (e : EditorInput) (options : Option ViewOpenOptions) (dir : Direction) :
    (e.isDirty = true →
      (viewOpenEditorOptions partOptions g e options).pinned = true) ∧
    ((match options with | some o => o.index.isSome | none => false) = true →
      (viewOpenEditorOptions partOptions g e options).pinned = true) ∧
    (partOptions.enablePreview = false →
      (viewOpenEditorOptions partOptions g e options).pinned = true) ∧
    (e.isDirty = true → previewOk g →
      (viewDoOpenEditor partOptions g e options dir).isPreview e = false) ∧
    ((viewOnDidEditorBecomeDirty g e).isPreview e = false) := by
  refine ⟨?_, ?_, ?_, ?_, ?_⟩
  · intro hd
    rw [viewOpenEditorOptions_pinned]
    simp [hd]
  · intro hidx
    rw [viewOpenEditorOptions_pinned]
    simp [hidx]
  · intro hnp
    rw [viewOpenEditorOptions_pinned]
    simp [hnp]
  · intro hd hpw
    have hpin : (viewOpenEditorOptions partOptions g e options).pinned = true := by
      rw [viewOpenEditorOptions_pinned]
      simp [hd]
    unfold viewDoOpenEditor EditorGroup.openEditor
    by_cases hmem : e ∈ g.editors
    · rw [if_neg (indexOfL_ne_neg hmem)]
      unfold EditorGroup.isPreview
      rw [openEditorExisting_preview, if_pos hpin]
      exact pin_preview_not_matches g e
    · rw [if_pos (indexOfL_eq_neg.mpr hmem)]
      rw [openEditorNew_pinned hpin]
      dsimp only
      unfold EditorGroup.isPreview
      have hgp : ∀ gp : Option EditorInput, gp = g.preview →
          matchesB gp (some e) = false := by
        intro gp hgpe
        rcases hp : gp with _ | p
        · rfl
        · have hpm : p ∈ g.editors := by
            rw [previewOk_iff] at hpw
            exact hpw p (by rw [← hgpe, hp])
          have : p ≠ e := fun hc => hmem (hc ▸ hpm)
          simp [matchesB, this]
      split
      · rw [setActive_preview]
        exact hgp _ rfl
      · exact hgp _ rfl
  · unfold viewOnDidEditorBecomeDirty viewPinEditor
    show (if (!g.isPinned e) = true then g.pin e else g).isPreview e = false
    split
    · unfold EditorGroup.isPreview
      exact pin_preview_not_matches g e
    · next hpin =>
      have hp : g.isPinned e = true := by
        rcases hb : g.isPinned e
        · rw [hb] at hpin
          simp at hpin
        · rfl
      unfold EditorGroup.isPinned at hp
      unfold EditorGroup.isPreview
      rcases hprev : g.preview with _ | p
      · rfl
      · rw [hprev] at hp
        split at hp
        · cases hp
        · simp at hp
          exact hp

/-- C10 (witness): a concrete dirty editor is forced pinned and is not the
preview after the dirty handler runs. -/
theorem C10_witness :
    (viewOpenEditorOptions ⟨true⟩ (mkGroup 0 "g")
      (.base 1 "f" "x" true) none).pinned = true ∧
    ((viewDoOpenEditor ⟨true⟩ (mkGroup 0 "g") (.base 1 "f" "x" true) none
        Direction.RIGHT).isPreview (.base 1 "f" "x" true) = false) ∧
    ((viewOnDidEditorBecomeDirty (mkGroup 0 "g")
        (.base 1 "f" "x" true)).isPreview (.base 1 "f" "x" true) = false) :=
  ⟨(C10_dirty_never_preview ⟨true⟩ (mkGroup 0 "g") (.base 1 "f" "x" true) none
      Direction.RIGHT).1 (by decide),
   (C10_dirty_never_preview ⟨true⟩ (mkGroup 0 "g") (.base 1 "f" "x" true) none
      Direction.RIGHT).2.2.2.1 (by decide) (by decide),
   (C10_dirty_never_preview ⟨true⟩ (mkGroup 0 "g") (.base 1 "f" "x" true) none
      Direction.RIGHT).2.2.2.2⟩

/-! ## Claim C5 -/

theorem setActive_mru_not_mem {g : EditorGroup} {p e : EditorInput}
    (hnm : p ∉ g.mru) (hne : p ≠ e) : p ∉ (g.setActive e).mru := by
  unfold EditorGroup.setActive EditorGroup.setMostRecentlyUsed
  split
  · exact hnm
  · split
    · exact hnm
    · dsimp only
      intro hmem
      rw [List.mem_cons] at hmem
      rcases hmem with hmem | hmem
      · exact hne hmem
      · unfold jsSpliceRemove at hmem
        rw [List.mem_append] at hmem
        rcases hmem with hmem | hmem
        · exact hnm (List.mem_of_mem_take hmem)
        · exact hnm (List.mem_of_mem_drop hmem)

/-- C5: opening a not-yet-present editor without requesting `pinned` in a
group that has a preview closes the old preview (it leaves both `editors` and
`mru`), installs the new editor as the group's preview, and leaves the net
editor count unchanged. -/
theorem C5_preview_replacement (g : EditorGroup) (e p : EditorInput)
    (opts : OpenOptions) (dir : Direction) (hinv : GroupInv g)
    (hpv : g.preview = some p) (hnotin : e ∉ g.editors)
    (hpin : opts.pinned = false) :
    (g.openEditor e opts dir).1.preview = some e ∧
    (g.openEditor e opts dir).1.editors.length = g.editors.length ∧
    p ∉ (g.openEditor e opts dir).1.editors ∧
    p ∉ (g.openEditor e opts dir).1.mru := by
  have hpmem : p ∈ g.editors := by
    have hpw := hinv.1.2.2
    rw [previewOk_iff] at hpw
    exact hpw p hpv
  have hpe : p ≠ e := fun hc => hnotin (hc ▸ hpmem)
  unfold EditorGroup.openEditor
  rw [if_pos (indexOfL_eq_neg.mpr hnotin), openEditorNew_withPreview hpin hpv]
  dsimp only
  set b := !(opts.active || g.active.isNone || matchesB (some p) g.active)
    with hbdef
  set tI2 := if openTargetIndex g opts dir ≥ indexOfL (some p) g.editors then
    openTargetIndex g opts dir - 1 else openTargetIndex g opts dir with htI2
  have hclosed := closeEditor_fst_eq (g := g) (e := p) b hinv.1 hpmem
  have hced : (g.closeEditor p b).1.editors = g.editors.erase p := by
    rw [hclosed]
  have hcem : (g.closeEditor p b).1.mru =
      (g.closeEditorActiveStep p b).mru.erase p := by
    rw [hclosed]
  have hpnotined : p ∉ (g.closeEditor p b).1.editors := by
    rw [hced]
    exact hinv.1.2.1.not_mem_erase
  have hpnotinm : p ∉ (g.closeEditor p b).1.mru := by
    rw [hcem]
    exact (mru_nodup (activeStep_invW p b hinv.1)).not_mem_erase
  have hlen : (jsSpliceInsert (g.closeEditor p b).1.editors tI2 e).length =
      g.editors.length := by
    rw [jsSpliceInsert_length, hced]
    exact List.length_erase_add_one hpmem
  have hmemIns : ∀ x, x ∈ jsSpliceInsert (g.closeEditor p b).1.editors tI2 e →
      x = e ∨ x ∈ (g.closeEditor p b).1.editors := by
    intro x hx
    exact jsSpliceInsert_mem.mp hx
  refine ⟨?_, ?_, ?_, ?_⟩
  · split
    · rw [setActive_preview]
    · rfl
  · split
    · rw [setActive_editors]
      exact hlen
    · exact hlen
  · have hnotg4 : p ∉ ({ (g.closeEditor p b).1.spliceIns tI2 e with
        preview := some e } : EditorGroup).editors := by
      intro hmem
      rcases hmemIns p hmem with hx | hx
      · exact hpe hx
      · exact hpnotined hx
    split
    · rw [setActive_editors]
      exact hnotg4
    · exact hnotg4
  · have hnotg4m : p ∉ ({ (g.closeEditor p b).1.spliceIns tI2 e with
        preview := some e } : EditorGroup).mru := by
      intro hmem
      have : p ∈ (g.closeEditor p b).1.mru ++ [e] := hmem
      rw [List.mem_append] at this
      rcases this with hx | hx
      · exact hpnotinm hx
      · rw [List.mem_singleton] at hx
        exact hpe hx
    split
    · exact setActive_mru_not_mem hnotg4m hpe
    · exact hnotg4m

/-- C5 (witness): a concrete preview replacement — group `[A]` with preview
`A`, opening `B` unpinned yields preview `B`, one editor, and `A` gone. -/
theorem C5_witness :
    (gPrevSample.openEditor (.base 2 "f" "b" false) {}
        Direction.RIGHT).1.preview = some (.base 2 "f" "b" false) ∧
    (.base 1 "f" "a" false) ∉ (gPrevSample.openEditor (.base 2 "f" "b" false)
        {} Direction.RIGHT).1.editors :=
  ⟨(C5_preview_replacement gPrevSample (.base 2 "f" "b" false)
      (.base 1 "f" "a" false) {} Direction.RIGHT (by decide) (by decide)
      (by decide) (by decide)).1,
   (C5_preview_replacement gPrevSample (.base 2 "f" "b" false)
      (.base 1 "f" "a" false) {} Direction.RIGHT (by decide) (by decide)
      (by decide) (by decide)).2.2.1⟩

/-! ## Claim C6: serialize/deserialize round trip -/

theorem serfold_serIns (reg : EditorRegistry) (preview : Option EditorInput)
    (l : List EditorInput) :
    ∀ acc, (l.foldl (serializeStep reg preview) acc).2.1 =
      acc.2.1 ++ l.filter (fun e => (reg.serializeInput e).isSome) := by
  induction l with
  | nil => intro acc; simp
  | cons x xs ih =>
    intro acc
    rw [List.foldl_cons]
    rcases hs : reg.serializeInput x with _ | v
    · have hstep : serializeStep reg preview acc x = acc := by
        unfold serializeStep
        rw [hs]
      rw [hstep, ih]
      simp [hs]
    · have hstep : (serializeStep reg preview acc x).2.1 = acc.2.1 ++ [x] := by
        unfold serializeStep
        rw [hs]
    
      have hstep1 : (serializeStep reg preview acc x).1 =
          acc.1 ++ [(x.getId, v)] := by
        unfold serializeStep
        rw [hs]
      rw [ih]
      rw [hstep]
      simp [hs]

theorem serfold_serEds (reg : EditorRegistry) (preview : Option EditorInput)
    (l : List EditorInput) :
    ∀ acc, (l.foldl (serializeStep reg preview) acc).1 =
      acc.1 ++ l.filterMap
        (fun e => (reg.serializeInput e).map (fun v => (e.getId, v))) := by
  induction l with
  | nil => intro acc; simp
  | cons x xs ih =>
    intro acc
    rw [List.foldl_cons]
    rcases hs : reg.serializeInput x with _ | v
    · have hstep : serializeStep reg preview acc x = acc := by
        unfold serializeStep
        rw [hs]
      rw [hstep, ih]
      simp [hs]
    · have hstep : (serializeStep reg preview acc x).1 =
          acc.1 ++ [(x.getId, v)] := by
        unfold serializeStep
        rw [hs]
      rw [ih, hstep]
      simp [hs]

theorem serfold_preview_skip (reg : EditorRegistry)
    (preview : Option EditorInput) (l : List EditorInput)
    (hskip : ∀ e ∈ l, preview = some e →
      (reg.serializeInput e).isSome = false) :
    ∀ acc, (l.foldl (serializeStep reg preview) acc).2.2 = acc.2.2 := by
  induction l with
  | nil => intro acc; simp
  | cons x xs ih =>
    intro acc
    rw [List.foldl_cons]
    have hxs : ∀ e ∈ xs, preview = some e →
        (reg.serializeInput e).isSome = false :=
      fun e he => hskip e (List.mem_cons_of_mem x he)
    rw [ih hxs]
    rcases hs : reg.serializeInput x with _ | v
    · unfold serializeStep
      rw [hs]
    · have hne : ¬(preview = some x) := by
        intro hc
        have := hskip x (List.mem_cons_self x xs) hc
        rw [hs] at this
        cases this
      unfold serializeStep
      rw [hs]
      simp [hne]

theorem serfold_preview_found (reg : EditorRegistry) (p : EditorInput)
    (l : List EditorInput) (hnd : l.Nodup) (hp : p ∈ l) {v : String}
    (hP : reg.serializeInput p = some v) :
    ∀ acc, ∃ k : Nat,
      (l.foldl (serializeStep reg (some p)) acc).2.2 = some (k : Int) ∧
      (acc.2.1 ++ l.filter (fun e => (reg.serializeInput e).isSome)).get? k =
        some p := by
  induction l with
  | nil => cases hp
  | cons x xs ih =>
    intro acc
    rw [List.foldl_cons]
    rcases List.mem_cons.mp hp with hpx | hpxs
    · subst hpx
      have hnotin : ∀ e ∈ xs, (some p : Option EditorInput) = some e →
          (reg.serializeInput e).isSome = false := by
        intro e he hc
        injection hc with hc
        exact absurd (hc ▸ he) (List.nodup_cons.mp hnd).1
      rw [serfold_preview_skip reg (some p) xs hnotin]
      refine ⟨acc.2.1.length, ?_, ?_⟩
      · unfold serializeStep
        rw [hP]
        simp
      · rw [List.filter_cons_of_pos (by simp [hP])]
        have hget : (acc.2.1 ++ p :: List.filter
            (fun e => (reg.serializeInput e).isSome) xs).get? acc.2.1.length =
            some p := by
          rw [List.get?_append_right (le_refl _)]
          simp
        exact hget
    · have hxne : x ≠ p := by
        intro hc
        exact absurd (hc ▸ hpxs) (List.nodup_cons.mp hnd).1
      have hstep2 : (serializeStep reg (some p) acc x).2.2 = acc.2.2 := by
        unfold serializeStep
        rcases hs : reg.serializeInput x with _ | v2
        · rfl
        · have : ¬((some p : Option EditorInput) = some x) := by
            intro hc
            injection hc with hc
            exact hxne hc.symm
          simp [this]
      obtain ⟨k, hk1, hk2⟩ := ih (List.nodup_cons.mp hnd).2 hpxs
        (serializeStep reg (some p) acc x)
      refine ⟨k, hk1, ?_⟩
      rcases hs : reg.serializeInput x with _ | v2
      · have hacc : (serializeStep reg (some p) acc x).2.1 = acc.2.1 := by
          unfold serializeStep
          rw [hs]
        rw [hacc] at hk2
        rw [List.filter_cons_of_neg (by simp [hs])]
        exact hk2
      · have hacc : (serializeStep reg (some p) acc x).2.1 =
            acc.2.1 ++ [x] := by
          unfold serializeStep
          rw [hs]
        rw [hacc] at hk2
        rw [List.filter_cons_of_pos (by simp [hs])]
        rw [List.append_assoc] at hk2
        simpa using hk2

theorem serMru_filterMap (serIns : List EditorInput) :
    ∀ mru : List EditorInput,
      ((mru.map (fun e => indexOfL (some e) serIns)).filter
          (fun i => i ≥ 0)).filterMap (fun i => jsGet serIns i) =
        mru.filter (fun e => decide (e ∈ serIns)) := by
  intro mru
  induction mru with
  | nil => simp
  | cons x rest ih =>
    by_cases hx : x ∈ serIns
    · obtain ⟨k, hk⟩ := indexOfFrom?_isSome hx
      rw [List.map_cons, indexOfL_of_found hk,
        List.filter_cons_of_pos (by simp), List.filterMap_cons,
        jsGet_of_indexOf hk, List.filter_cons_of_pos (by simp [hx]), ih]
    · rw [List.map_cons, indexOfL_eq_neg.mpr hx,
        List.filter_cons_of_neg (by simp),
        List.filter_cons_of_neg (by simp [hx]), ih]

theorem serMru_head (serIns : List EditorInput) :
    ∀ mru : List EditorInput,
      ((mru.map (fun e => indexOfL (some e) serIns)).filter
          (fun i => i ≥ 0)).head?.bind (fun i => jsGet serIns i) =
        (mru.filter (fun e => decide (e ∈ serIns))).head? := by
  intro mru
  induction mru with
  | nil => simp
  | cons x rest ih =>
    by_cases hx : x ∈ serIns
    · obtain ⟨k, hk⟩ := indexOfFrom?_isSome hx
      rw [List.map_cons, indexOfL_of_found hk,
        List.filter_cons_of_pos (by simp), List.filter_cons_of_pos
          (by simp [hx])]
      simp [jsGet_of_indexOf hk]
    · rw [List.map_cons, indexOfL_eq_neg.mpr hx,
        List.filter_cons_of_neg (by simp),
        List.filter_cons_of_neg (by simp [hx]), ih]

theorem deser_editors (reg : EditorRegistry)
    (hfaith : ∀ e v, reg.serializeInput e = some v →
      reg.deserializeInput e.getId v = e) :
    ∀ l : List EditorInput,
      (l.filterMap (fun e => (reg.serializeInput e).map
          (fun v => (e.getId, v)))).map
        (fun q => reg.deserializeInput q.1 q.2) =
      l.filter (fun e => (reg.serializeInput e).isSome) := by
  intro l
  induction l with
  | nil => simp
  | cons x rest ih =>
    rcases hs : reg.serializeInput x with _ | v
    · rw [List.filterMap_cons_none (by simp [hs]),
        List.filter_cons_of_neg (by simp [hs]), ih]
    · rw [List.filterMap_cons_some (b := (x.getId, v)) (by simp [hs]),
        List.filter_cons_of_pos (by simp [hs]), List.map_cons, ih,
        hfaith x v hs]

/-- C6: `deserialize (serialize g)` reconstructs the group restricted to the
serializable handles: `editors` and `mru` keep their order with
non-serializable handles dropped, `active` becomes the most recent
serializable handle (in particular the original active editor whenever it is
serializable), and the preview is kept iff it is serializable. Hypotheses: the
registry's factories are faithful (deserialize is a left inverse of
serialize), and the group satisfies the group invariant. -/
theorem C6_roundtrip (reg : EditorRegistry) (g : EditorGroup) (nid : Nat)
    (hfaith : ∀ e v, reg.serializeInput e = some v →
      reg.deserializeInput e.getId v = e)
    (hinv : GroupInv g) :
    (EditorGroup.deserialize reg nid (g.serialize reg)).editors =
      g.editors.filter (fun e => (reg.serializeInput e).isSome) ∧
    (EditorGroup.deserialize reg nid (g.serialize reg)).mru =
      g.mru.filter (fun e => (reg.serializeInput e).isSome) ∧
    (EditorGroup.deserialize reg nid (g.serialize reg)).active =
      (g.mru.filter (fun e => (reg.serializeInput e).isSome)).head? ∧
    (∀ a, g.active = some a → (reg.serializeInput a).isSome = true →
      (EditorGroup.deserialize reg nid (g.serialize reg)).active = some a) ∧
    (EditorGroup.deserialize reg nid (g.serialize reg)).preview =
      g.preview.bind (fun p =>
        if (reg.serializeInput p).isSome = true then some p else none) ∧
    (EditorGroup.deserialize reg nid (g.serialize reg)).label = g.label := by
  have hdataEd : (g.serialize reg).editors = g.editors.filterMap
      (fun e => (reg.serializeInput e).map (fun v => (e.getId, v))) := by
    unfold EditorGroup.serialize
    dsimp only
    rw [serfold_serEds]
    rfl
  have hserIns : (g.editors.foldl (serializeStep reg g.preview)
      ([], [], none)).2.1 =
      g.editors.filter (fun e => (reg.serializeInput e).isSome) := by
    rw [serfold_serIns]
    rfl
  have hdataMru : (g.serialize reg).mru =
      (g.mru.map (fun e => indexOfL (some e)
        (g.editors.filter (fun e => (reg.serializeInput e).isSome)))).filter
        (fun i => i ≥ 0) := by
    unfold EditorGroup.serialize
    dsimp only
    rw [hserIns]
  have hdataPrev : (g.serialize reg).preview =
      (g.editors.foldl (serializeStep reg g.preview) ([], [], none)).2.2 := by
    unfold EditorGroup.serialize
    dsimp only
  have hmapE : (g.serialize reg).editors.map
      (fun q => reg.deserializeInput q.1 q.2) =
      g.editors.filter (fun e => (reg.serializeInput e).isSome) := by
    rw [hdataEd]
    exact deser_editors reg hfaith g.editors
  have hfe : ∀ x ∈ g.mru,
      (decide (x ∈ g.editors.filter (fun e => (reg.serializeInput e).isSome)))
        = (reg.serializeInput x).isSome := by
    intro x hx
    by_cases hP : (reg.serializeInput x).isSome = true
    · simp [List.mem_filter, hinv.1.1.mem_iff.mp hx, hP]
    · have hP2 : (reg.serializeInput x).isSome = false := by
        rcases hb : (reg.serializeInput x).isSome
        · rfl
        · exact absurd hb hP
      simp [List.mem_filter, hP2]
  have hde : (EditorGroup.deserialize reg nid (g.serialize reg)).editors =
      (g.serialize reg).editors.map (fun q => reg.deserializeInput q.1 q.2) :=
    rfl
  have hdm : (EditorGroup.deserialize reg nid (g.serialize reg)).mru =
      (g.serialize reg).mru.filterMap (fun i => jsGet
        ((g.serialize reg).editors.map
          (fun q => reg.deserializeInput q.1 q.2)) i) := rfl
  have hda : (EditorGroup.deserialize reg nid (g.serialize reg)).active =
      (g.serialize reg).mru.head?.bind (fun i => jsGet
        ((g.serialize reg).editors.map
          (fun q => reg.deserializeInput q.1 q.2)) i) := rfl
  have hdp : (EditorGroup.deserialize reg nid (g.serialize reg)).preview =
      (g.serialize reg).preview.bind (fun i => jsGet
        ((g.serialize reg).editors.map
          (fun q => reg.deserializeInput q.1 q.2)) i) := rfl
  have hmru : (EditorGroup.deserialize reg nid (g.serialize reg)).mru =
      g.mru.filter (fun e => (reg.serializeInput e).isSome) := by
    rw [hdm, hmapE, hdataMru, serMru_filterMap]
    exact List.filter_congr hfe
  have hact : (EditorGroup.deserialize reg nid (g.serialize reg)).active =
      (g.mru.filter (fun e => (reg.serializeInput e).isSome)).head? := by
    rw [hda, hmapE, hdataMru, serMru_head]
    rw [List.filter_congr hfe]
  refine ⟨by rw [hde, hmapE], hmru, hact, ?_, ?_, rfl⟩
  · intro a ha hP
    rw [hact]
    have hhd : g.mru.head? = some a := by
      have h2 := hinv.2
      unfold activeOk at h2
      rw [ha] at h2
      exact h2
    obtain ⟨t, hmru2⟩ : ∃ t, g.mru = a :: t := by
      rcases hm : g.mru with _ | ⟨x, t⟩
      · rw [hm] at hhd; cases hhd
      · rw [hm] at hhd
        simp at hhd
        exact ⟨t, by rw [hhd]⟩
    rw [hmru2, List.filter_cons_of_pos (by simp [hP])]
    rfl
  · rw [hdp, hmapE, hdataPrev]
    rcases hpv : g.preview with _ | p
    · rw [serfold_preview_skip reg none g.editors (by intro e he hc; cases hc)]
      rfl
    · by_cases hP : (reg.serializeInput p).isSome = true
      · rcases hs : reg.serializeInput p with _ | v
        · rw [hs] at hP; cases hP
        · obtain ⟨k, hk1, hk2⟩ := serfold_preview_found reg p g.editors
            hinv.1.2.1 (by
              have hpw := hinv.1.2.2
              rw [previewOk_iff] at hpw
              exact hpw p hpv) hs ([], [], none)
          rw [hk1]
          simp only [List.nil_append] at hk2
          show jsGet (List.filter (fun e => (reg.serializeInput e).isSome)
              g.editors) (k : Int) =
            if (reg.serializeInput p).isSome = true then some p else none
          rw [if_pos hP]
          unfold jsGet
          rw [if_neg (by omega)]
          simpa using hk2
      · have hP2 : (reg.serializeInput p).isSome = false := by
          rcases hb : (reg.serializeInput p).isSome
          · rfl
          · exact absurd hb hP
        rw [serfold_preview_skip reg (some p) g.editors (by
          intro e he hc
          injection hc with hc
          rw [← hc]
          exact hP2)]
        simp [hP2]

/-- C6 (witness): round trip on a concrete group drops the non-serializable
editor and keeps order, active and preview. -/
theorem C6_witness :
    (EditorGroup.deserialize regRT 0 (gRT.serialize regRT)).editors =
      [.base 1 "f" "a" false, .base 2 "f" "b" false] ∧
    (EditorGroup.deserialize regRT 0 (gRT.serialize regRT)).mru =
      [.base 2 "f" "b" false, .base 1 "f" "a" false] ∧
    (EditorGroup.deserialize regRT 0 (gRT.serialize regRT)).active =
      some (.base 2 "f" "b" false) ∧
    (EditorGroup.deserialize regRT 0 (gRT.serialize regRT)).preview =
      some (.base 2 "f" "b" false) := by
  have hf : ∀ e v, regRT.serializeInput e = some v →
      regRT.deserializeInput e.getId v = e := by
    intro e v h
    by_cases h1 : e = EditorInput.base 1 "f" "a" false
    · subst h1
      simp [regRT] at h
      subst h
      rfl
    · by_cases h2 : e = EditorInput.base 2 "f" "b" false
      · subst h2
        simp [regRT] at h
        subst h
        rfl
      · simp [regRT, h1, h2] at h
  have h := C6_roundtrip regRT gRT 0 hf (by decide)
  refine ⟨?_, ?_, ?_, ?_⟩
  · rw [h.1]
    rfl
  · rw [h.2.1]
    rfl
  · rw [h.2.2.1]
    rfl
  · rw [h.2.2.2.2.1]
    rfl

/-! ## Claim C9: the flattened editor ring -/

theorem flatSeq_length (gs : List EditorGroup) :
    (flatSeq gs).length = ((gs.map (fun g => g.editors.length))).sum := by
  induction gs with
  | nil => rfl
  | cons g rest ih =>
    unfold flatSeq at *
    simp [ih]

theorem get?_lt_length {α : Type} {l : List α} {n : Nat} {a : α}
    (h : l.get? n = some a) : n < l.length := by
  by_contra hn
  rw [List.get?_eq_none.mpr (by omega)] at h
  cases h

theorem flatSeq_cons (x : EditorGroup) (rest : List EditorGroup) :
    flatSeq (x :: rest) =
      x.editors.map (fun e => (x, e)) ++ flatSeq rest := by
  unfold flatSeq
  rw [List.flatMap_cons]

theorem posInFlat_zero (gs : List EditorGroup) (j : Nat) :
    posInFlat gs 0 j = j := by
  unfold posInFlat
  simp

theorem posInFlat_cons_succ (x : EditorGroup) (rest : List EditorGroup)
    (i j : Nat) :
    posInFlat (x :: rest) (i + 1) j =
      x.editors.length + posInFlat rest i j := by
  unfold posInFlat
  rw [List.take_succ_cons]
  simp [Nat.add_assoc]

theorem flatSeq_get (gs : List EditorGroup) :
    ∀ (i j : Nat) (g : EditorGroup) (e : EditorInput),
      gs.get? i = some g → g.editors.get? j = some e →
      (flatSeq gs).get? (posInFlat gs i j) = some (g, e) := by
  induction gs with
  | nil =>
    intro i j g e hg _
    simp at hg
  | cons x rest ih =>
    intro i j g e hg he
    cases i with
    | zero =>
      rw [List.get?_cons_zero] at hg
      injection hg with hg
      subst hg
      rw [flatSeq_cons, posInFlat_zero, List.get?_append]
      · rw [List.get?_map, he]
        rfl
      · rw [List.length_map]
        exact get?_lt_length he
    | succ i2 =>
      rw [List.get?_cons_succ] at hg
      rw [flatSeq_cons, posInFlat_cons_succ,
        List.get?_append_right (by simp)]
      rw [List.length_map]
      rw [Nat.add_sub_cancel_left]
      exact ih i2 j g e hg he

theorem find_by_id {gs : List EditorGroup} {g : EditorGroup} :
    ∀ {i : Nat}, (gs.map (fun x => x.id)).Nodup → gs.get? i = some g →
      gs.find? (fun x => x.id = g.id) = some g := by
  induction gs with
  | nil =>
    intro i _ hget
    simp at hget
  | cons x rest ih =>
    intro i hids hget
    cases i with
    | zero =>
      rw [List.get?_cons_zero] at hget
      injection hget with hget
      subst hget
      rw [List.find?_cons_of_pos]
      simp
    | succ i2 =>
      rw [List.get?_cons_succ] at hget
      have hgmem : g ∈ rest := List.get?_mem hget
      have hxne : x.id ≠ g.id := by
        intro hc
        rw [List.map_cons, List.nodup_cons] at hids
        exact hids.1 (hc ▸ List.mem_map_of_mem (fun y => y.id) hgmem)
      rw [List.find?_cons_of_neg rest (by simp [hxne])]
      exact ih (by rw [List.map_cons, List.nodup_cons] at hids; exact hids.2)
        hget

theorem findIdx_of_get {gs : List EditorGroup} {g : EditorGroup} :
    ∀ {i : Nat}, gs.Nodup → gs.get? i = some g →
      gs.findIdx? (fun x => x = g) = some i := by
  induction gs with
  | nil =>
    intro i _ hget
    simp at hget
  | cons x rest ih =>
    intro i hnd hget
    cases i with
    | zero =>
      rw [List.get?_cons_zero] at hget
      injection hget with hget
      subst hget
      rw [List.findIdx?_cons]
      simp
    | succ i2 =>
      rw [List.get?_cons_succ] at hget
      have hgmem : g ∈ rest := List.get?_mem hget
      have hxne : x ≠ g := by
        intro hc
        exact (List.nodup_cons.mp hnd).1 (hc ▸ hgmem)
      rw [List.findIdx?_cons, List.findIdx?_succ]
      simp only [hxne, decide_eq_true_eq, if_false]
      rw [ih (List.nodup_cons.mp hnd).2 hget]
      rfl

theorem sumTake_succ {gs : List EditorGroup} {i : Nat} {g : EditorGroup}
    (hget : gs.get? i = some g) :
    ((gs.take (i + 1)).map (fun x => x.editors.length)).sum =
      ((gs.take i).map (fun x => x.editors.length)).sum +
        g.editors.length := by
  rw [List.take_succ]
  have hg2 : gs[i]? = some g := by
    rw [← List.get?_eq_getElem?]
    exact hget
  rw [hg2]
  simp

theorem sumTake_le (gs : List EditorGroup) (n : Nat) :
    ((gs.take n).map (fun x => x.editors.length)).sum ≤
      (gs.map (fun x => x.editors.length)).sum := by
  conv_rhs => rw [← List.take_append_drop n gs]
  rw [List.map_append, List.sum_append]
  omega

theorem sumTake_full (gs : List EditorGroup) {n : Nat} (hn : gs.length ≤ n) :
    ((gs.take n).map (fun x => x.editors.length)).sum =
      (gs.map (fun x => x.editors.length)).sum := by
  rw [List.take_of_length_le hn]

theorem activeGroup_resolves {m : StacksModel} {g : EditorGroup} {i : Nat}
    (hids : (m.groups.map (fun x => x.id)).Nodup)
    (hg : m.groups.get? i = some g)
    (hact : m.activeGroupId = some g.id) : m.activeGroup = some g := by
  unfold StacksModel.activeGroup
  rw [hact]
  show m.groups.find? (fun x => x.id = g.id) = some g
  exact find_by_id hids hg

theorem next_ring_aux (m : StacksModel) (i j : Nat) (g : EditorGroup)
    (a : EditorInput)
    (hids : (m.groups.map (fun x => x.id)).Nodup)
    (hne : ∀ g2 ∈ m.groups, g2.editors ≠ [])
    (hg : m.groups.get? i = some g)
    (hact : m.activeGroupId = some g.id)
    (ha : g.active = some a)
    (hj : indexOfFrom? a g.editors = some j) :
    m.next = ((flatSeq m.groups).get?
      ((posInFlat m.groups i j + 1) % (flatSeq m.groups).length)).map
      (fun q => (q.1, some q.2)) := by
  have hag : m.activeGroup = some g := activeGroup_resolves hids hg hact
  have hnodup : m.groups.Nodup := hids.of_map
  have hidx : m.groups.findIdx? (fun x => x = g) = some i :=
    findIdx_of_get hnodup hg
  have hjlt : j < g.editors.length := indexOfFrom?_lt hj
  have hL : (flatSeq m.groups).length =
      (m.groups.map (fun x => x.editors.length)).sum := flatSeq_length _
  have hsti := sumTake_succ hg
  have hstle := sumTake_le m.groups (i + 1)
  unfold StacksModel.next
  rw [hag]
  simp only [ha, indexOfL_of_found hj]
  by_cases hcase : j + 1 < g.editors.length
  · rw [if_pos (by exact_mod_cast hcase)]
    obtain ⟨e2, he2⟩ : ∃ e2, g.editors.get? (j + 1) = some e2 := by
      rcases hh : g.editors.get? (j + 1) with _ | e2
      · exact absurd (List.get?_eq_none.mp hh) (by omega)
      · exact ⟨e2, rfl⟩
    have hjs : jsGet g.editors ((j : Int) + 1) = some e2 := by
      unfold jsGet
      rw [if_neg (by omega)]
      have ht : ((j : Int) + 1).toNat = j + 1 := by omega
      rw [ht, he2]
    have hklt : posInFlat m.groups i j + 1 < (flatSeq m.groups).length := by
      rw [hL]
      unfold posInFlat
      omega
    have hk : posInFlat m.groups i (j + 1) = posInFlat m.groups i j + 1 := by
      unfold posInFlat
      omega
    rw [Nat.mod_eq_of_lt hklt, ← hk,
      flatSeq_get m.groups i (j + 1) g e2 hg he2, hjs]
    rfl
  · have hlen : j + 1 = g.editors.length := by omega
    rw [if_neg (by exact_mod_cast hcase)]
    simp only [hidx]
    by_cases hlast : i + 1 < m.groups.length
    · obtain ⟨g2, hg2⟩ : ∃ g2, m.groups.get? (i + 1) = some g2 := by
        rcases hh : m.groups.get? (i + 1) with _ | g2
        · exact absurd (List.get?_eq_none.mp hh) (by omega)
        · exact ⟨g2, rfl⟩
      have hjs : jsGet m.groups ((i : Int) + 1) = some g2 := by
        unfold jsGet
        rw [if_neg (by omega)]
        have ht : ((i : Int) + 1).toNat = i + 1 := by omega
        rw [ht, hg2]
      rw [hjs]
      have hne2 : g2.editors ≠ [] := hne g2 (List.get?_mem hg2)
      have hcnt2 : 0 < g2.editors.length := List.length_pos.mpr hne2
      obtain ⟨e20, he20⟩ : ∃ x, g2.editors.get? 0 = some x := by
        rcases hh : g2.editors.get? 0 with _ | x
        · have := List.get?_eq_none.mp hh
          omega
        · exact ⟨x, rfl⟩
      have hjs0 : jsGet g2.editors 0 = some e20 := by
        unfold jsGet
        rw [if_neg (by omega)]
        exact he20
      have hsti2 := sumTake_succ hg2
      have hstle2 := sumTake_le m.groups (i + 2)
      have hkeq : posInFlat m.groups i j + 1 = posInFlat m.groups (i + 1) 0 := by
        unfold posInFlat
        omega
      have hklt : posInFlat m.groups (i + 1) 0 < (flatSeq m.groups).length := by
        rw [hL]
        unfold posInFlat
        have : ((m.groups.take (i + 1 + 1)).map
            (fun x => x.editors.length)).sum ≤
            (m.groups.map (fun x => x.editors.length)).sum := hstle2
        omega
      show some (g2, jsGet g2.editors 0) = _
      rw [hkeq, Nat.mod_eq_of_lt hklt,
        flatSeq_get m.groups (i + 1) 0 g2 e20 hg2 he20, hjs0]
      rfl
    · have hilen : i + 1 = m.groups.length := by
        have := get?_lt_length hg
        omega
      have hjs : jsGet m.groups ((i : Int) + 1) = none := by
        unfold jsGet
        rw [if_neg (by omega)]
        have ht : ((i : Int) + 1).toNat = i + 1 := by omega
        rw [ht]
        exact List.get?_eq_none.mpr (by omega)
      rw [hjs]
      obtain ⟨g0, hg0⟩ : ∃ g0, m.groups.get? 0 = some g0 := by
        rcases hh : m.groups.get? 0 with _ | g0
        · have := List.get?_eq_none.mp hh
          have := get?_lt_length hg
          omega
        · exact ⟨g0, rfl⟩
      have hhd : m.groups.head? = some g0 := by
        rw [← List.get?_zero]
        exact hg0
      rw [hhd]
      have hne0 : g0.editors ≠ [] := hne g0 (List.get?_mem hg0)
      have hcnt0 : 0 < g0.editors.length := List.length_pos.mpr hne0
      obtain ⟨e00, he00⟩ : ∃ x, g0.editors.get? 0 = some x := by
        rcases hh : g0.editors.get? 0 with _ | x
        · have := List.get?_eq_none.mp hh
          omega
        · exact ⟨x, rfl⟩
      have hjs0 : jsGet g0.editors 0 = some e00 := by
        unfold jsGet
        rw [if_neg (by omega)]
        exact he00
      have hkL : posInFlat m.groups i j + 1 = (flatSeq m.groups).length := by
        rw [hL, ← sumTake_full m.groups (n := i + 1) (by omega)]
        unfold posInFlat
        omega
      show some (g0, jsGet g0.editors 0) = _
      rw [hkL, Nat.mod_self]
      have hp0 : posInFlat m.groups 0 0 = 0 := posInFlat_zero m.groups 0
      rw [← hp0, flatSeq_get m.groups 0 0 g0 e00 hg0 he00, hjs0]
      rfl

theorem getLast?_get? {α : Type} (l : List α) :
    l.getLast? = l.get? (l.length - 1) := by
  rw [List.get?_eq_getElem?, List.getLast?_eq_getElem?]

theorem previous_ring_aux (m : StacksModel) (i j : Nat) (g : EditorGroup)
    (a : EditorInput)
    (hids : (m.groups.map (fun x => x.id)).Nodup)
    (hne : ∀ g2 ∈ m.groups, g2.editors ≠ [])
    (hg : m.groups.get? i = some g)
    (hact : m.activeGroupId = some g.id)
    (ha : g.active = some a)
    (hj : indexOfFrom? a g.editors = some j) :
    m.previous = ((flatSeq m.groups).get?
      ((posInFlat m.groups i j + (flatSeq m.groups).length - 1) %
        (flatSeq m.groups).length)).map
      (fun q => (q.1, some q.2)) := by
  have hag : m.activeGroup = some g := activeGroup_resolves hids hg hact
  have hnodup : m.groups.Nodup := hids.of_map
  have hidx : m.groups.findIdx? (fun x => x = g) = some i :=
    findIdx_of_get hnodup hg
  have hjlt : j < g.editors.length := indexOfFrom?_lt hj
  have hL : (flatSeq m.groups).length =
      (m.groups.map (fun x => x.editors.length)).sum := flatSeq_length _
  have hsti := sumTake_succ hg
  have hstle := sumTake_le m.groups (i + 1)
  have hklt : posInFlat m.groups i j < (flatSeq m.groups).length := by
    rw [hL]
    unfold posInFlat
    omega
  unfold StacksModel.previous
  rw [hag]
  simp only [ha, indexOfL_of_found hj]
  by_cases hj0 : 0 < j
  · rw [if_pos (by exact_mod_cast hj0)]
    obtain ⟨e2, he2⟩ : ∃ e2, g.editors.get? (j - 1) = some e2 := by
      rcases hh : g.editors.get? (j - 1) with _ | e2
      · have := List.get?_eq_none.mp hh
        omega
      · exact ⟨e2, rfl⟩
    have hjs : jsGet g.editors ((j : Int) - 1) = some e2 := by
      unfold jsGet
      rw [if_neg (by omega)]
      have ht : ((j : Int) - 1).toNat = j - 1 := by omega
      rw [ht, he2]
    have hk1 : 0 < posInFlat m.groups i j := by
      unfold posInFlat
      omega
    have hmod : (posInFlat m.groups i j + (flatSeq m.groups).length - 1) %
        (flatSeq m.groups).length = posInFlat m.groups i j - 1 := by
      have hsplit : posInFlat m.groups i j + (flatSeq m.groups).length - 1 =
          (flatSeq m.groups).length + (posInFlat m.groups i j - 1) := by
        omega
      rw [hsplit, Nat.add_mod_left]
      exact Nat.mod_eq_of_lt (by omega)
    have hkm : posInFlat m.groups i (j - 1) = posInFlat m.groups i j - 1 := by
      unfold posInFlat
      omega
    rw [hjs, hmod, ← hkm, flatSeq_get m.groups i (j - 1) g e2 hg he2]
    rfl
  · have hjz : j = 0 := by omega
    rw [if_neg (by omega)]
    simp only [hidx]
    by_cases hfirst : 0 < i
    · obtain ⟨g1, hg1⟩ : ∃ g1, m.groups.get? (i - 1) = some g1 := by
        have hlt : i - 1 < m.groups.length := by
          have := get?_lt_length hg
          omega
        rcases hh : m.groups.get? (i - 1) with _ | g1
        · have := List.get?_eq_none.mp hh
          omega
        · exact ⟨g1, rfl⟩
      have hjs : jsGet m.groups ((i : Int) - 1) = some g1 := by
        unfold jsGet
        rw [if_neg (by omega)]
        have ht : ((i : Int) - 1).toNat = i - 1 := by omega
        rw [ht, hg1]
      rw [hjs]
      have hne1 : g1.editors ≠ [] := hne g1 (List.get?_mem hg1)
      have hcnt1 : 0 < g1.editors.length := List.length_pos.mpr hne1
      obtain ⟨e1, he1⟩ : ∃ x, g1.editors.get? (g1.editors.length - 1) = some x := by
        rcases hh : g1.editors.get? (g1.editors.length - 1) with _ | x
        · have := List.get?_eq_none.mp hh
          omega
        · exact ⟨x, rfl⟩
      have hjs1 : jsGet g1.editors ((g1.editors.length : Int) - 1) = some e1 := by
        unfold jsGet
        rw [if_neg (by omega)]
        have ht : ((g1.editors.length : Int) - 1).toNat =
            g1.editors.length - 1 := by omega
        rw [ht, he1]
      have hsti1 : ((m.groups.take (i - 1 + 1)).map
          (fun x => x.editors.length)).sum =
          ((m.groups.take (i - 1)).map (fun x => x.editors.length)).sum +
            g1.editors.length := sumTake_succ hg1
      have hieq : i - 1 + 1 = i := by omega
      rw [hieq] at hsti1
      have hk1 : 0 < posInFlat m.groups i j := by
        unfold posInFlat at *
        omega
      have hmod : (posInFlat m.groups i j + (flatSeq m.groups).length - 1) %
          (flatSeq m.groups).length = posInFlat m.groups i j - 1 := by
        have hsplit : posInFlat m.groups i j + (flatSeq m.groups).length - 1 =
            (flatSeq m.groups).length + (posInFlat m.groups i j - 1) := by
          omega
        rw [hsplit, Nat.add_mod_left]
        exact Nat.mod_eq_of_lt (by omega)
      have hkm : posInFlat m.groups (i - 1) (g1.editors.length - 1) =
          posInFlat m.groups i j - 1 := by
        unfold posInFlat at *
        omega
      show some (g1, jsGet g1.editors ((g1.editors.length : Int) - 1)) = _
      rw [hmod, ← hkm,
        flatSeq_get m.groups (i - 1) (g1.editors.length - 1) g1 e1 hg1 he1,
        hjs1]
      rfl
    · have hiz : i = 0 := by omega
      have hjs : jsGet m.groups ((i : Int) - 1) = none := by
        unfold jsGet
        rw [if_pos (by omega)]
      rw [hjs]
      have hn : 0 < m.groups.length := by
        have := get?_lt_length hg
        omega
      obtain ⟨gl, hgl⟩ : ∃ gl, m.groups.get? (m.groups.length - 1) = some gl := by
        rcases hh : m.groups.get? (m.groups.length - 1) with _ | gl
        · have := List.get?_eq_none.mp hh
          omega
        · exact ⟨gl, rfl⟩
      have hlast : m.groups.getLast? = some gl := by
        rw [getLast?_get?]
        exact hgl
      rw [hlast]
      have hnel : gl.editors ≠ [] := hne gl (List.get?_mem hgl)
      have hcntl : 0 < gl.editors.length := List.length_pos.mpr hnel
      obtain ⟨el, hel⟩ : ∃ x, gl.editors.get? (gl.editors.length - 1) = some x := by
        rcases hh : gl.editors.get? (gl.editors.length - 1) with _ | x
        · have := List.get?_eq_none.mp hh
          omega
        · exact ⟨x, rfl⟩
      have hjsl : jsGet gl.editors ((gl.editors.length : Int) - 1) = some el := by
        unfold jsGet
        rw [if_neg (by omega)]
        have ht : ((gl.editors.length : Int) - 1).toNat =
            gl.editors.length - 1 := by omega
        rw [ht, hel]
      have hstil : ((m.groups.take (m.groups.length - 1 + 1)).map
          (fun x => x.editors.length)).sum =
          ((m.groups.take (m.groups.length - 1)).map
            (fun x => x.editors.length)).sum + gl.editors.length :=
        sumTake_succ hgl
      have hfull : ((m.groups.take (m.groups.length - 1 + 1)).map
          (fun x => x.editors.length)).sum =
          (m.groups.map (fun x => x.editors.length)).sum :=
        sumTake_full m.groups (by omega)
      have hLpos : 0 < (flatSeq m.groups).length := by
        rw [hL]
        have hg0 : m.groups.get? 0 = some g := by
          rw [← hiz]
          exact hg
        have hsti0 := sumTake_succ hg0
        have hstle0 := sumTake_le m.groups 1
        have hcg : 0 < g.editors.length := by omega
        omega
      have hk0 : posInFlat m.groups i j = 0 := by
        rw [hiz, hjz]
        exact posInFlat_zero m.groups 0
      have hmod : (posInFlat m.groups i j + (flatSeq m.groups).length - 1) %
          (flatSeq m.groups).length = (flatSeq m.groups).length - 1 := by
        rw [hk0]
        simp only [Nat.zero_add]
        exact Nat.mod_eq_of_lt (by omega)
      have hkm : posInFlat m.groups (m.groups.length - 1)
          (gl.editors.length - 1) = (flatSeq m.groups).length - 1 := by
        unfold posInFlat
        rw [hL]
        omega
      show some (gl, jsGet gl.editors ((gl.editors.length : Int) - 1)) = _
      rw [hmod, ← hkm,
        flatSeq_get m.groups (m.groups.length - 1) (gl.editors.length - 1)
          gl el hgl hel, hjsl]
      rfl

theorem ring_mod_inverse {k L : Nat} (h : k < L) :
    ((k + 1) % L + L - 1) % L = k ∧ ((k + L - 1) % L + 1) % L = k := by
  constructor
  · by_cases hc : k + 1 < L
    · rw [Nat.mod_eq_of_lt hc]
      have hs : k + 1 + L - 1 = L + k := by omega
      rw [hs, Nat.add_mod_left]
      exact Nat.mod_eq_of_lt h
    · have hk1 : k + 1 = L := by omega
      rw [hk1, Nat.mod_self]
      have hs : 0 + L - 1 = k := by omega
      rw [hs]
      exact Nat.mod_eq_of_lt h
  · by_cases hc : 0 < k
    · have hs : k + L - 1 = L + (k - 1) := by omega
      rw [hs, Nat.add_mod_left, Nat.mod_eq_of_lt (by omega : k - 1 < L)]
      have hs2 : k - 1 + 1 = k := by omega
      rw [hs2]
      exact Nat.mod_eq_of_lt h
    · have hk0 : k = 0 := by omega
      subst hk0
      have hs : 0 + L - 1 = L - 1 := by omega
      rw [hs, Nat.mod_eq_of_lt (by omega : L - 1 < L)]
      have hs2 : L - 1 + 1 = L := by omega
      rw [hs2, Nat.mod_self]

/-- C9 counterexample: with an empty group present, `next()` and `previous()`
do NOT traverse the flattened ring of all groups' editors. In a model whose
groups are `[gC9one (editors [a], active a), gC9empty (no editors)]`, the
flattened sequence is just `[(gC9one, a)]`, so the ring successor and
predecessor of the active position are both `(gC9one, a)`; the code instead
returns the empty group with a `null` editor in both directions. -/
theorem C9_counterexample :
    mC9.next = some (gC9empty, none) ∧
    mC9.previous = some (gC9empty, none) ∧
    ((flatSeq mC9.groups).get?
      ((posInFlat mC9.groups 0 0 + 1) % (flatSeq mC9.groups).length)).map
      (fun q => (q.1, some q.2)) = some (gC9one, some inC9A) ∧
    ((flatSeq mC9.groups).get?
      ((posInFlat mC9.groups 0 0 + (flatSeq mC9.groups).length - 1) %
        (flatSeq mC9.groups).length)).map
      (fun q => (q.1, some q.2)) = some (gC9one, some inC9A) ∧
    gC9empty ≠ gC9one := by
  refine ⟨by decide, by decide, by decide, by decide, by decide⟩

/-- C9 (amended): provided every group of the model is nonempty (and the model
is well formed: distinct group ids, the active group `g` sits at position `i`
of the groups list, and its active editor `a` sits at position `j` of its
editors), `next()` returns exactly the successor and `previous()` exactly the
predecessor of the active position in the flattened ring over all groups'
editors (group order, then editor order within a group, wrapping at both
ends); stepping forward then backward (and backward then forward) in the ring
returns to the same position, so `previous(next(x)) = x` on a stable model;
and on any model without an active group both return `none`. Without the
nonemptiness proviso the ring breaks (see the counterexample). -/
theorem C9_amended (m m2 : StacksModel) (i j : Nat) (g : EditorGroup)
    (a : EditorInput)
    (hids : (m.groups.map (fun x => x.id)).Nodup)
    (hne : ∀ g2 ∈ m.groups, g2.editors ≠ [])
    (hg : m.groups.get? i = some g)
    (hact : m.activeGroupId = some g.id)
    (ha : g.active = some a)
    (hj : indexOfFrom? a g.editors = some j)
    (hnone : m2.activeGroupId = none) :
    m.next = ((flatSeq m.groups).get?
      ((posInFlat m.groups i j + 1) % (flatSeq m.groups).length)).map
      (fun q => (q.1, some q.2)) ∧
    m.previous = ((flatSeq m.groups).get?
      ((posInFlat m.groups i j + (flatSeq m.groups).length - 1) %
        (flatSeq m.groups).length)).map
      (fun q => (q.1, some q.2)) ∧
    ((posInFlat m.groups i j + 1) % (flatSeq m.groups).length +
      (flatSeq m.groups).length - 1) % (flatSeq m.groups).length =
      posInFlat m.groups i j ∧
    ((posInFlat m.groups i j + (flatSeq m.groups).length - 1) %
      (flatSeq m.groups).length + 1) % (flatSeq m.groups).length =
      posInFlat m.groups i j ∧
    m2.next = none ∧ m2.previous = none := by
  have hjlt : j < g.editors.length := indexOfFrom?_lt hj
  have hsti := sumTake_succ hg
  have hstle := sumTake_le m.groups (i + 1)
  have hklt : posInFlat m.groups i j < (flatSeq m.groups).length := by
    rw [flatSeq_length]
    unfold posInFlat
    omega
  obtain ⟨hm1, hm2⟩ := ring_mod_inverse hklt
  refine ⟨next_ring_aux m i j g a hids hne hg hact ha hj,
    previous_ring_aux m i j g a hids hne hg hact ha hj, hm1, hm2, ?_, ?_⟩
  · simp [StacksModel.next, StacksModel.activeGroup, hnone]
  · simp [StacksModel.previous, StacksModel.activeGroup, hnone]

/-- C9 witness: the amended theorem applied to a concrete two-group model
(groups `[a, b]` and `[c]`, active editor `a`) and to the empty model. -/
theorem C9_amended_witness :
    (∀ g2 ∈ mC9w.groups, g2.editors ≠ []) ∧
    mC9w.next = ((flatSeq mC9w.groups).get?
      ((posInFlat mC9w.groups 0 0 + 1) % (flatSeq mC9w.groups).length)).map
      (fun q => (q.1, some q.2)) ∧
    emptyModel.next = none ∧ emptyModel.previous = none :=
  ⟨by decide,
   (C9_amended mC9w emptyModel 0 0 gC9w1 inC9A (by decide) (by decide)
     rfl rfl rfl (by decide) rfl).1,
   (C9_amended mC9w emptyModel 0 0 gC9w1 inC9A (by decide) (by decide)
     rfl rfl rfl (by decide) rfl).2.2.2.2.1,
   (C9_amended mC9w emptyModel 0 0 gC9w1 inC9A (by decide) (by decide)
     rfl rfl rfl (by decide) rfl).2.2.2.2.2⟩
